import Mathlib

/-!
Shallow embedding of the grid-graph construction and routing core of
`src/route_planner.py` (classes `GridSpec`, `Fairway`, `RoutePlan`).

Modelling conventions:
* Real (float) arithmetic of the source is modelled exactly over `ℚ`.
* The projected fairway geometry `fairway_m` (a shapely Polygon/MultiPolygon)
  is modelled as the list of its component polygons.  Each component is
  abstracted to a decidable point membership test `covers` (shapely's
  `prepared.covers`, which includes the boundary) together with its axis
  aligned bounding box, subject to the shapely invariant that every covered
  point lies inside the bounding box.  `prepared.covers` on the union holds
  iff some component covers the point, and `STRtree.query(pt)` returns the
  components whose bounding box contains the point.
* Edge weights are values `a + b·√2`: the source stores
  `spacing * mult` where `mult` is `1.0` or `2**0.5`.  They are represented
  by the pair of rational coefficients `(a, b)` (type `W`) and interpreted
  into `ℝ` by `W.toReal`.
* Python exceptions are modelled with `Except Err`: `ZeroDivisionError`
  raised by `(maxx - minx) // 0.0`, the `ValueError` of
  `GridSpec.neighbors`, the `RuntimeError` of `shortest_path_between` when
  snapping fails, and `networkx.NetworkXNoPath` raised by `nx.astar_path`.
* `nx.astar_path` is external library code (not part of this repository);
  it is modelled by its documented contract: it returns a path of minimal
  total weight from the start node to the goal node (optimal because the
  supplied Euclidean heuristic is admissible and consistent), and raises
  `NetworkXNoPath` when the goal is unreachable.  The model realises this
  contract executably as a minimum-cost search over simple paths.
* The coordinate transformation (`pyproj.Transformer`) is an injected pure
  function `fwd : ℚ × ℚ → ℚ × ℚ`, as the specification prescribes.
-/

instance {ε α : Type _} [DecidableEq ε] [DecidableEq α] : DecidableEq (Except ε α) :=
  fun a b =>
    match a, b with
    | .ok x, .ok y =>
      if h : x = y then isTrue (by rw [h]) else isFalse (fun hc => h (Except.ok.inj hc))
    | .ok _, .error _ => isFalse (fun hc => Except.noConfusion hc)
    | .error _, .ok _ => isFalse (fun hc => Except.noConfusion hc)
    | .error x, .error y =>
      if h : x = y then isTrue (by rw [h]) else isFalse (fun hc => h (Except.error.inj hc))

namespace AmoRoutePlan

/-- Grid node identifier: the `(i, j)` integer grid indices of the source. -/
abbrev Node : Type := ℤ × ℤ

/-- A quantity `a + b·√2`, the exact value of the float expressions
`spacing * 1.0` / `spacing * 2**0.5` and their sums. -/
structure W where
  a : ℚ
  b : ℚ
deriving DecidableEq, Repr

instance : Zero W := ⟨⟨0, 0⟩⟩

instance : Add W := ⟨fun u v => ⟨u.a + v.a, u.b + v.b⟩⟩

/-- Interpretation of `W` into the reals. -/
noncomputable def W.toReal (w : W) : ℝ := (w.a : ℝ) + (w.b : ℝ) * Real.sqrt 2

/-- Decision procedure for `0 ≤ a + b·√2` over the rationals. -/
def W.nonnegB (w : W) : Bool :=
  if 0 ≤ w.b then
    (if 0 ≤ w.a then true else decide (w.a * w.a ≤ 2 * (w.b * w.b)))
  else
    (if 0 ≤ w.a then decide (2 * (w.b * w.b) ≤ w.a * w.a) else false)

/-- Decision procedure for `u ≤ v` on `W` values. -/
def W.ble (u v : W) : Bool := W.nonnegB ⟨v.a - u.a, v.b - u.b⟩

/-- Decision procedure for `u < v` on `W` values. -/
def W.blt (u v : W) : Bool := !(W.ble v u)

/-- Exceptions of the modelled Python code. -/
inductive Err where
  /-- `ZeroDivisionError` from `(maxx - minx) // spacing` with zero spacing. -/
  | zeroDivision : Err
  /-- `ValueError` (here: the one raised by `GridSpec.neighbors`). -/
  | valueError : String → Err
  /-- `RuntimeError` raised by `shortest_path_between` when snapping fails. -/
  | snapError : Err
  /-- `networkx.NetworkXNoPath` raised by `nx.astar_path`. -/
  | noPath : Err
deriving DecidableEq, Repr

/-- One component polygon of the projected fairway geometry, abstracted to a
decidable membership test (shapely `covers`: interior or boundary) and its
bounding box.  `covers_bbox` is the shapely invariant that a polygon covers
only points of its bounding box. -/
structure Poly where
  minx : ℚ
  miny : ℚ
  maxx : ℚ
  maxy : ℚ
  covers : ℚ → ℚ → Bool
  covers_bbox : ∀ x y, covers x y = true → minx ≤ x ∧ x ≤ maxx ∧ miny ≤ y ∧ y ≤ maxy

/-- `fairway_m.bounds` (min x): componentwise minimum over the parts. -/
def bMinX (polys : List Poly) : ℚ :=
  match polys with
  | [] => 0
  | p :: ps => ps.foldl (fun m q => min m q.minx) p.minx

/-- `fairway_m.bounds` (min y). -/
def bMinY (polys : List Poly) : ℚ :=
  match polys with
  | [] => 0
  | p :: ps => ps.foldl (fun m q => min m q.miny) p.miny

/-- `fairway_m.bounds` (max x). -/
def bMaxX (polys : List Poly) : ℚ :=
  match polys with
  | [] => 0
  | p :: ps => ps.foldl (fun m q => max m q.maxx) p.maxx

/-- `fairway_m.bounds` (max y). -/
def bMaxY (polys : List Poly) : ℚ :=
  match polys with
  | [] => 0
  | p :: ps => ps.foldl (fun m q => max m q.maxy) p.maxy

/-- Whether a point lies in a component's bounding box (the geometric test of
`STRtree.query` for a point query). -/
def inBBox (p : Poly) (x y : ℚ) : Bool :=
  decide (p.minx ≤ x ∧ x ≤ p.maxx ∧ p.miny ≤ y ∧ y ≤ p.maxy)

/-- `len(tree.query(pt)) != 0`: the spatial-index quick reject of
`Fairway._get_grid_graph`. -/
def treeQueryNonempty (polys : List Poly) (x y : ℚ) : Bool :=
  polys.any (fun p => inBBox p x y)

/-- `prepared.covers(pt)` on the union geometry: some component covers the
point. -/
def regionCovers (polys : List Poly) (x y : ℚ) : Bool :=
  polys.any (fun p => p.covers x y)

/-- `GridSpec` of the source: a plain dataclass, no validation on
construction (the `Literal[4, 8]` annotation is a type hint only). -/
structure GridSpec where
  spacing_m : ℚ
  connectivity : ℤ
deriving DecidableEq, Repr

/-- `GridSpec.neighbors`: relative offsets and step cost multipliers
(`1.0` for N/E/S/W encoded `⟨1, 0⟩`, `2**0.5` for diagonals encoded
`⟨0, 1⟩`); raises `ValueError` for any other connectivity. -/
def GridSpec.neighbors (g : GridSpec) : Except Err (List (ℤ × ℤ × W)) :=
  if g.connectivity = 4 then
    .ok [(-1, 0, ⟨1, 0⟩), (1, 0, ⟨1, 0⟩), (0, -1, ⟨1, 0⟩), (0, 1, ⟨1, 0⟩)]
  else if g.connectivity = 8 then
    .ok [(-1, 0, ⟨1, 0⟩), (1, 0, ⟨1, 0⟩), (0, -1, ⟨1, 0⟩), (0, 1, ⟨1, 0⟩),
         (-1, -1, ⟨0, 1⟩), (-1, 1, ⟨0, 1⟩), (1, -1, ⟨0, 1⟩), (1, 1, ⟨0, 1⟩)]
  else
    .error (Err.valueError ("connectivity must be 4 or 8"))

/-- Index range `range(cells + 1)` of the source, as integers. -/
def idxRange (cells : ℤ) : List ℤ :=
  (List.range (cells + 1).toNat).map Int.ofNat

/-- The node-creation loop of `Fairway._get_grid_graph`: the insertion-ordered
`xy` dict mapping `(i, j)` to its projected coordinate, keeping exactly the
lattice points that pass the spatial-index quick reject and the
`prepared.covers` test. -/
def buildNodes (polys : List Poly) (g : GridSpec) : List (Node × (ℚ × ℚ)) :=
  let minx := bMinX polys
  let miny := bMinY polys
  let nxCells : ℤ := ⌊(bMaxX polys - minx) / g.spacing_m⌋ + 1
  let nyCells : ℤ := ⌊(bMaxY polys - miny) / g.spacing_m⌋ + 1
  (idxRange nxCells).flatMap (fun (i : ℤ) =>
    let x := minx + (i : ℚ) * g.spacing_m
    (idxRange nyCells).filterMap (fun (j : ℤ) =>
      let y := miny + (j : ℚ) * g.spacing_m
      if treeQueryNonempty polys x y && regionCovers polys x y then
        some ((i, j), (x, y))
      else none))

/-- An undirected edge as stored: source node, target node, weight. -/
abbrev Edge : Type := Node × Node × W

instance : DecidableEq ((List (Node × (ℚ × ℚ))) × List Edge) := instDecidableEqProd

/-- Whether a stored edge connects `u` and `v` (in either orientation). -/
def matchEdge (u v : Node) (e : Edge) : Bool :=
  decide ((e.1 = u ∧ e.2.1 = v) ∨ (e.1 = v ∧ e.2.1 = u))

/-- `G.has_edge(u, v)` of the undirected graph. -/
def hasEdge (es : List Edge) (u v : Node) : Bool :=
  es.any (matchEdge u v)

/-- Inner loop of the edge-assembly phase: for each neighbor offset of one
node, add the edge (`weight = spacing * mult`) when the neighbor exists and
the edge is not already present. -/
def addEdgesForNode (xy : List (Node × (ℚ × ℚ))) (s : ℚ) (node : Node)
    (nbs : List (ℤ × ℤ × W)) (es : List Edge) : List Edge :=
  nbs.foldl (fun es d =>
    let nb : Node := (node.1 + d.1, node.2 + d.2.1)
    if xy.any (fun p => decide (p.1 = nb)) && !hasEdge es node nb then
      es ++ [(node, nb, W.mk (s * d.2.2.a) (s * d.2.2.b))]
    else es) es

/-- The edge-assembly loop of `Fairway._get_grid_graph`; `grid.neighbors()` is
invoked once per node inside the loop, so its `ValueError` surfaces only when
at least one node exists. -/
def buildEdges (xy : List (Node × (ℚ × ℚ))) (g : GridSpec) : Except Err (List Edge) :=
  xy.foldlM (fun es p => do
    let nbs ← g.neighbors
    pure (addEdgesForNode xy g.spacing_m p.1 nbs es)) []

/-- `Fairway._get_grid_graph`: bounding box, integer grid ranges, node
creation, edge assembly.  With zero spacing the floor division
`(maxx - minx) // spacing` raises `ZeroDivisionError` before any node is
created.  The returned pair is `(xy, edges)`; the graph's node set is exactly
the key set of `xy`. -/
def get_grid_graph (polys : List Poly) (g : GridSpec) :
    Except Err (List (Node × (ℚ × ℚ)) × List Edge) :=
  if g.spacing_m = 0 then .error Err.zeroDivision
  else
    match buildEdges (buildNodes polys g) g with
    | .ok es => .ok (buildNodes polys g, es)
    | .error e => .error e

/-- A built `Fairway` instance: projected geometry, grid spec, and the graph
artifact `(xy_m, edges)` produced by `_get_grid_graph`. -/
structure Fairway where
  fairway_m : List Poly
  grid : GridSpec
  xy_m : List (Node × (ℚ × ℚ))
  edges : List Edge

/-- The `Fairway.__init__` relation between a fairway value and its inputs:
its graph fields are the successful result of `_get_grid_graph`. -/
def Fairway.WellBuilt (fw : Fairway) : Prop :=
  get_grid_graph fw.fairway_m fw.grid = .ok (fw.xy_m, fw.edges)

/-- Squared Euclidean distance from a query point to a node coordinate
(the `d2` of `RoutePlan._nearest_node_xy`). -/
def d2sq (x y : ℚ) (c : ℚ × ℚ) : ℚ :=
  (c.1 - x) * (c.1 - x) + (c.2 - y) * (c.2 - y)

/-- One step of the linear scan of `RoutePlan._nearest_node_xy` (initial
state `best = None`, `best_d2 = inf`; strict improvement). -/
def snapStep (x y : ℚ) (acc : Option (Node × ℚ)) (p : Node × (ℚ × ℚ)) :
    Option (Node × ℚ) :=
  let d2 := d2sq x y p.2
  match acc with
  | none => some (p.1, d2)
  | some (bn, bd) => if d2 < bd then some (p.1, d2) else some (bn, bd)

/-- `RoutePlan._nearest_node_xy`: linear scan over the `xy_m` items in
insertion order, keeping the first strict minimiser of squared distance;
`None` on an empty lattice. -/
def nearest_node_xy (xy : List (Node × (ℚ × ℚ))) (x y : ℚ) : Option Node :=
  (xy.foldl (snapStep x y) none).map (fun p => p.1)

/-- `xy_m[n]` lookup (nodes of the built graph are exactly the keys). -/
def lookupXY (xy : List (Node × (ℚ × ℚ))) (n : Node) : ℚ × ℚ :=
  match xy.find? (fun p => decide (p.1 = n)) with
  | some p => p.2
  | none => (0, 0)

/-- The A* heuristic `h` of `RoutePlan.shortest_path_between`: Euclidean
distance in meters between the two nodes' projected coordinates. -/
noncomputable def hEuclid (xy : List (Node × (ℚ × ℚ))) (u v : Node) : ℝ :=
  Real.sqrt ((((lookupXY xy u).1 : ℝ) - ((lookupXY xy v).1 : ℝ)) ^ 2 +
    (((lookupXY xy u).2 : ℝ) - ((lookupXY xy v).2 : ℝ)) ^ 2)

/-- Weight of the stored edge between `u` and `v` (`G[u][v]["weight"]`);
junk value `0` when absent (the source would raise a `KeyError`, but every
use is on consecutive nodes of a valid path). -/
def wt (es : List Edge) (u v : Node) : W :=
  match es.find? (matchEdge u v) with
  | some e => e.2.2
  | none => 0

/-- `nx.path_weight(G, path, "weight")`: the sum of the weights of the
traversed edges. -/
def pathWeight (es : List Edge) : List Node → W
  | [] => 0
  | [_] => 0
  | u :: v :: rest => wt es u v + pathWeight es (v :: rest)

/-- Adjacency in the undirected graph. -/
def adjRel (es : List Edge) (u v : Node) : Prop := hasEdge es u v = true

/-- A walk through the graph from `s` to `t`: nonempty, endpoints inclusive,
consecutive nodes joined by an edge. -/
def isWalk (es : List Edge) (p : List Node) (s t : Node) : Prop :=
  p ≠ [] ∧ p.head? = some s ∧ p.getLast? = some t ∧ List.Chain' (adjRel es) p

/-- Neighbors of `u` in the undirected edge list. -/
def adjN (es : List Edge) (u : Node) : List Node :=
  es.filterMap (fun e =>
    if e.1 = u then some e.2.1 else if e.2.1 = u then some e.1 else none)

/-- All simple paths from `u` to `t` avoiding the visited set, with at most
`fuel + 1` nodes. -/
def pathsAux (es : List Edge) (t : Node) : ℕ → Node → List Node → List (List Node)
  | 0, u, _ => if u = t then [[u]] else []
  | fuel + 1, u, vis =>
    if u = t then [[u]]
    else
      ((adjN es u).filter (fun v => !(decide (v ∈ u :: vis)))).flatMap
        (fun v => (pathsAux es t fuel v (u :: vis)).map (fun p => u :: p))

/-- Fold keeping the first candidate of strictly minimal weight. -/
def minFold (cost : List Node → W) (q : List Node) (qs : List (List Node)) : List Node :=
  qs.foldl (fun best r => if W.blt (cost r) (cost best) = true then r else best) q

/-- Select a path of minimal weight from a list of candidates (`none` when
the list is empty). -/
def selectMin (cost : List Node → W) (l : List (List Node)) : Option (List Node) :=
  match l with
  | [] => none
  | p :: ps => some (minFold cost p ps)

/-- Model of the external `nx.astar_path(G, s, t, heuristic=h, weight="weight")`
call by its documented contract: a path of minimal total weight from `s` to
`t` (the admissible, consistent Euclidean heuristic only steers exploration,
it does not change the optimality of the result), or failure when `t` is
unreachable from `s`.  Realised as an exhaustive minimum-cost search over
simple paths, whose length is bounded by the number of graph nodes. -/
def astar_path (xy : List (Node × (ℚ × ℚ))) (es : List Edge) (s t : Node) :
    Option (List Node) :=
  selectMin (pathWeight es) (pathsAux es t xy.length s [])

/-- `RoutePlan.shortest_path_between`: project both query points with the
injected transformer, snap each to the nearest grid node (raising
`RuntimeError` when snapping fails), run A*, and return the node sequence
together with `nx.path_weight` of that sequence. -/
def shortest_path_between (fw : Fairway) (fwd : ℚ × ℚ → ℚ × ℚ)
    (start_lon start_lat end_lon end_lat : ℚ) : Except Err (List Node × W) :=
  match nearest_node_xy fw.xy_m (fwd (start_lon, start_lat)).1 (fwd (start_lon, start_lat)).2,
        nearest_node_xy fw.xy_m (fwd (end_lon, end_lat)).1 (fwd (end_lon, end_lat)).2 with
  | some s, some t =>
    match astar_path fw.xy_m fw.edges s t with
    | some p => .ok (p, pathWeight fw.edges p)
    | none => .error Err.noPath
  | _, _ => .error Err.snapError

/-- `RoutePlan.find_route`: delegates to `shortest_path_between` (the
`list(path)` conversion is the identity here, the path already being a
list). -/
def find_route (fw : Fairway) (fwd : ℚ × ℚ → ℚ × ℚ)
    (start_lon start_lat end_lon end_lat : ℚ) : Except Err (List Node × W) :=
  shortest_path_between fw fwd start_lon start_lat end_lon end_lat

/-! Concrete geometries used to instantiate the theorems. -/

/-- A 100 m × 100 m square region with its corner at the origin. -/
def sq100 : Poly where
  minx := 0
  miny := 0
  maxx := 100
  maxy := 100
  covers := fun x y => decide (0 ≤ x ∧ x ≤ 100 ∧ 0 ≤ y ∧ y ≤ 100)
  covers_bbox := fun _ _ h => of_decide_eq_true h

/-- A degenerate region covering only the single interior point
`(1/2, 1/2)` of its bounding box: no lattice point of any grid anchored at
the bounding box corner with spacing above the box diagonal falls in it. -/
def midPointOnly : Poly where
  minx := 0
  miny := 0
  maxx := 1
  maxy := 1
  covers := fun x y => decide (x = 1 / 2 ∧ y = 1 / 2)
  covers_bbox := fun x y h => by
    obtain ⟨hx, hy⟩ := of_decide_eq_true h
    subst hx; subst hy
    norm_num

/-- A degenerate component covering exactly the origin. -/
def dotAt0 : Poly where
  minx := 0
  miny := 0
  maxx := 0
  maxy := 0
  covers := fun x y => decide (x = 0 ∧ y = 0)
  covers_bbox := fun x y h => by
    obtain ⟨hx, hy⟩ := of_decide_eq_true h
    subst hx; subst hy
    norm_num

/-- A degenerate component covering exactly the point `(300, 0)`. -/
def dotAt300 : Poly where
  minx := 300
  miny := 0
  maxx := 300
  maxy := 0
  covers := fun x y => decide (x = 300 ∧ y = 0)
  covers_bbox := fun x y h => by
    obtain ⟨hx, hy⟩ := of_decide_eq_true h
    subst hx; subst hy
    norm_num

/-- The fairway built from `sq100` at spacing 100, connectivity 8 (its graph
fields are the literal output of `get_grid_graph`). -/
def fwSq : Fairway where
  fairway_m := [sq100]
  grid := ⟨100, 8⟩
  xy_m := [((0, 0), (0, 0)), ((0, 1), (0, 100)), ((1, 0), (100, 0)), ((1, 1), (100, 100))]
  edges :=
    [((0, 0), (1, 0), ⟨100, 0⟩),
     ((0, 0), (0, 1), ⟨100, 0⟩),
     ((0, 0), (1, 1), ⟨0, 100⟩),
     ((0, 1), (1, 1), ⟨100, 0⟩),
     ((0, 1), (1, 0), ⟨0, 100⟩),
     ((1, 0), (1, 1), ⟨100, 0⟩)]

/-- A disconnected fairway: two isolated degenerate components 300 m apart,
yielding two lattice nodes and no edges. -/
def fwDots : Fairway where
  fairway_m := [dotAt0, dotAt300]
  grid := ⟨100, 8⟩
  xy_m := [((0, 0), (0, 0)), ((3, 0), (300, 0))]
  edges := []

/-- The fairway built from `midPointOnly` at spacing 200: an empty lattice. -/
def fwEmpty : Fairway where
  fairway_m := [midPointOnly]
  grid := ⟨200, 8⟩
  xy_m := []
  edges := []

/-- A fairway value with a different geometry and grid record but exactly the
same graph artifact as `fwSq`. -/
def fwSqClone : Fairway where
  fairway_m := []
  grid := ⟨1, 4⟩
  xy_m := fwSq.xy_m
  edges := fwSq.edges

/-! ### Lemmas about the weight representation `W` -/

theorem sqrt2_mul_self : Real.sqrt 2 * Real.sqrt 2 = 2 :=
  Real.mul_self_sqrt (by norm_num)

theorem sqrt2_pos : (0 : ℝ) < Real.sqrt 2 :=
  Real.sqrt_pos.mpr (by norm_num)

theorem W.toReal_zero : (0 : W).toReal = 0 := by
  show ((0 : ℚ) : ℝ) + ((0 : ℚ) : ℝ) * Real.sqrt 2 = 0
  push_cast
  ring

theorem W.toReal_add (u v : W) : (u + v).toReal = u.toReal + v.toReal := by
  show (((u.a + v.a : ℚ)) : ℝ) + ((u.b + v.b : ℚ) : ℝ) * Real.sqrt 2 = _
  push_cast
  unfold W.toReal
  ring

theorem W.nonnegB_iff (w : W) : W.nonnegB w = true ↔ 0 ≤ w.toReal := by
  have hss := sqrt2_mul_self
  have hs0 := sqrt2_pos
  set s := Real.sqrt 2 with hs
  have htr : w.toReal = (w.a : ℝ) + (w.b : ℝ) * s := rfl
  rw [htr]
  unfold W.nonnegB
  split_ifs with hb ha ha
  · -- 0 ≤ b, 0 ≤ a
    have hbR : (0 : ℝ) ≤ (w.b : ℝ) := by exact_mod_cast hb
    have haR : (0 : ℝ) ≤ (w.a : ℝ) := by exact_mod_cast ha
    simp only [true_iff]
    have : (0 : ℝ) ≤ (w.b : ℝ) * s := mul_nonneg hbR hs0.le
    linarith
  · -- 0 ≤ b, a < 0
    have hbR : (0 : ℝ) ≤ (w.b : ℝ) := by exact_mod_cast hb
    have haR : (w.a : ℝ) < 0 := by exact_mod_cast lt_of_not_ge ha
    rw [decide_eq_true_eq]
    constructor
    · intro h
      have hR : (w.a : ℝ) * (w.a : ℝ) ≤ 2 * ((w.b : ℝ) * (w.b : ℝ)) := by exact_mod_cast h
      have hbs : (0 : ℝ) < -(w.a : ℝ) + (w.b : ℝ) * s := by nlinarith
      have key : ((w.a : ℝ) + (w.b : ℝ) * s) * (-(w.a : ℝ) + (w.b : ℝ) * s)
          = 2 * ((w.b : ℝ) * (w.b : ℝ)) - (w.a : ℝ) * (w.a : ℝ) := by
        have h2 : ((w.a : ℝ) + (w.b : ℝ) * s) * (-(w.a : ℝ) + (w.b : ℝ) * s)
            = (w.b : ℝ) * (w.b : ℝ) * (s * s) - (w.a : ℝ) * (w.a : ℝ) := by ring
        rw [h2, hss]; ring
      by_contra hc
      have h1 : (w.a : ℝ) + (w.b : ℝ) * s < 0 := lt_of_not_ge hc
      have h2 := mul_neg_of_neg_of_pos h1 hbs
      rw [key] at h2
      linarith
    · intro h
      have h1 : (0 : ℝ) ≤ -(w.a : ℝ) := by linarith
      have h2 : -(w.a : ℝ) ≤ (w.b : ℝ) * s := by linarith
      have h3 := mul_self_le_mul_self h1 h2
      have h4 : (w.a : ℝ) * (w.a : ℝ) ≤ 2 * ((w.b : ℝ) * (w.b : ℝ)) := by nlinarith
      exact_mod_cast h4
  · -- b < 0, 0 ≤ a
    have hbR : (w.b : ℝ) < 0 := by exact_mod_cast lt_of_not_ge hb
    have haR : (0 : ℝ) ≤ (w.a : ℝ) := by exact_mod_cast ha
    rw [decide_eq_true_eq]
    constructor
    · intro h
      have hR : 2 * ((w.b : ℝ) * (w.b : ℝ)) ≤ (w.a : ℝ) * (w.a : ℝ) := by exact_mod_cast h
      by_contra hc
      have h1 : (w.a : ℝ) + (w.b : ℝ) * s < 0 := lt_of_not_ge hc
      have h3 : (w.a : ℝ) < -((w.b : ℝ) * s) := by linarith
      have h4 := mul_self_lt_mul_self haR h3
      have h5 : -((w.b : ℝ) * s) * -((w.b : ℝ) * s) = 2 * ((w.b : ℝ) * (w.b : ℝ)) := by
        have h6 : -((w.b : ℝ) * s) * -((w.b : ℝ) * s) = (w.b : ℝ) * (w.b : ℝ) * (s * s) := by
          ring
        rw [h6, hss]; ring
      rw [h5] at h4
      linarith
    · intro h
      have h1 : (0 : ℝ) ≤ -((w.b : ℝ) * s) := by nlinarith
      have h2 : -((w.b : ℝ) * s) ≤ (w.a : ℝ) := by linarith
      have h3 := mul_self_le_mul_self h1 h2
      have h4 : 2 * ((w.b : ℝ) * (w.b : ℝ)) ≤ (w.a : ℝ) * (w.a : ℝ) := by nlinarith
      exact_mod_cast h4
  · -- b < 0, a < 0
    have hbR : (w.b : ℝ) < 0 := by exact_mod_cast lt_of_not_ge hb
    have haR : (w.a : ℝ) < 0 := by exact_mod_cast lt_of_not_ge ha
    simp only [false_iff, not_le]
    nlinarith

theorem W.ble_iff (u v : W) : W.ble u v = true ↔ u.toReal ≤ v.toReal := by
  unfold W.ble
  rw [W.nonnegB_iff]
  have : (W.mk (v.a - u.a) (v.b - u.b)).toReal = v.toReal - u.toReal := by
    unfold W.toReal
    push_cast
    ring
  rw [this]
  exact sub_nonneg

theorem W.blt_iff (u v : W) : W.blt u v = true ↔ u.toReal < v.toReal := by
  have h := W.ble_iff v u
  unfold W.blt
  cases hble : W.ble v u with
  | false =>
    simp only [Bool.not_false, true_iff]
    refine lt_of_not_ge fun hle => ?_
    have hb := h.mpr hle
    rw [hble] at hb
    exact Bool.noConfusion hb
  | true =>
    simp only [Bool.not_true, Bool.false_eq_true, false_iff, not_lt]
    exact h.mp hble

/-! ### Lemmas about minimum selection -/

theorem minFold_eq_or_mem (cost : List Node → W) :
    ∀ (qs : List (List Node)) (q : List Node),
      minFold cost q qs = q ∨ minFold cost q qs ∈ qs := by
  intro qs
  induction qs with
  | nil => intro q; left; rfl
  | cons r rs ih =>
    intro q
    unfold minFold at ih ⊢
    simp only [List.foldl_cons]
    rcases ih (if W.blt (cost r) (cost q) = true then r else q) with h | h
    · rw [h]
      split_ifs with hb
      · right; exact List.mem_cons_self r rs
      · left; rfl
    · right; exact List.mem_cons_of_mem r h

theorem minFold_le (cost : List Node → W) :
    ∀ (qs : List (List Node)) (q : List Node),
      (cost (minFold cost q qs)).toReal ≤ (cost q).toReal ∧
      ∀ r ∈ qs, (cost (minFold cost q qs)).toReal ≤ (cost r).toReal := by
  intro qs
  induction qs with
  | nil =>
    intro q
    exact ⟨le_refl _, by intro r hr; exact absurd hr (List.not_mem_nil r)⟩
  | cons r rs ih =>
    intro q
    unfold minFold at ih ⊢
    simp only [List.foldl_cons]
    obtain ⟨ih1, ih2⟩ := ih (if W.blt (cost r) (cost q) = true then r else q)
    constructor
    · refine le_trans ih1 ?_
      split_ifs with hb
      · exact le_of_lt ((W.blt_iff _ _).mp hb)
      · exact le_refl _
    · intro s hs
      rcases List.mem_cons.mp hs with hsr | hsrs
      · subst hsr
        refine le_trans ih1 ?_
        split_ifs with hb
        · exact le_refl _
        · have hnl : ¬ (cost s).toReal < (cost q).toReal := fun hlt =>
            hb ((W.blt_iff (cost s) (cost q)).mpr hlt)
          exact not_lt.mp hnl
      · exact ih2 s hsrs

theorem selectMin_mem {cost : List Node → W} {l : List (List Node)} {p : List Node}
    (h : selectMin cost l = some p) : p ∈ l := by
  cases l with
  | nil => exact Option.noConfusion h
  | cons q qs =>
    have hp : minFold cost q qs = p := Option.some.inj h
    rcases minFold_eq_or_mem cost qs q with h' | h'
    · rw [hp] at h'; rw [h']; exact List.mem_cons_self q qs
    · rw [hp] at h'; exact List.mem_cons_of_mem q h'

theorem selectMin_le {cost : List Node → W} {l : List (List Node)} {p : List Node}
    (h : selectMin cost l = some p) :
    ∀ q ∈ l, (cost p).toReal ≤ (cost q).toReal := by
  cases l with
  | nil => exact Option.noConfusion h
  | cons q qs =>
    have hp : minFold cost q qs = p := Option.some.inj h
    intro r hr
    obtain ⟨h1, h2⟩ := minFold_le cost qs q
    rcases List.mem_cons.mp hr with hrq | hrqs
    · subst hrq; rw [← hp]; exact h1
    · rw [← hp]; exact h2 r hrqs

theorem selectMin_isSome {cost : List Node → W} {l : List (List Node)} (h : l ≠ []) :
    (selectMin cost l).isSome = true := by
  cases l with
  | nil => exact absurd rfl h
  | cons q qs => rfl

/-! ### Lemmas about walks and path weight -/

theorem hasEdge_symm (es : List Edge) (u v : Node) : hasEdge es u v = hasEdge es v u := by
  unfold hasEdge
  induction es with
  | nil => rfl
  | cons e es ih =>
    simp only [List.any_cons, ih]
    have hm : matchEdge u v e = matchEdge v u e := by
      unfold matchEdge
      rcases Decidable.em ((e.1 = u ∧ e.2.1 = v) ∨ (e.1 = v ∧ e.2.1 = u)) with h | h
      · rw [decide_eq_true h, decide_eq_true (Or.symm h)]
      · rw [decide_eq_false h, decide_eq_false (fun h' => h (Or.symm h'))]
    rw [hm]

theorem wt_mem_or_zero (es : List Edge) (u v : Node) :
    (∃ e ∈ es, matchEdge u v e = true ∧ wt es u v = e.2.2) ∨ wt es u v = 0 := by
  unfold wt
  cases hf : es.find? (matchEdge u v) with
  | none => right; rfl
  | some e =>
    left
    exact ⟨e, List.mem_of_find?_eq_some hf, List.find?_some hf, rfl⟩

theorem wt_nonneg (es : List Edge) (h : ∀ e ∈ es, 0 ≤ e.2.2.toReal) (u v : Node) :
    0 ≤ (wt es u v).toReal := by
  rcases wt_mem_or_zero es u v with ⟨e, he, _, hw⟩ | hw
  · rw [hw]; exact h e he
  · rw [hw, W.toReal_zero]

theorem pathWeight_cons_cons (es : List Edge) (u v : Node) (r : List Node) :
    pathWeight es (u :: v :: r) = wt es u v + pathWeight es (v :: r) := rfl

theorem pathWeight_nonneg (es : List Edge) (h : ∀ e ∈ es, 0 ≤ e.2.2.toReal) :
    ∀ p, 0 ≤ (pathWeight es p).toReal := by
  intro p
  induction p with
  | nil => rw [show pathWeight es [] = 0 from rfl, W.toReal_zero]
  | cons u rest ih =>
    cases rest with
    | nil => rw [show pathWeight es [u] = 0 from rfl, W.toReal_zero]
    | cons v r =>
      rw [pathWeight_cons_cons, W.toReal_add]
      have h1 := wt_nonneg es h u v
      linarith

theorem pathWeight_cons_ge (es : List Edge) (h : ∀ e ∈ es, 0 ≤ e.2.2.toReal)
    (x : Node) (p : List Node) :
    (pathWeight es p).toReal ≤ (pathWeight es (x :: p)).toReal := by
  cases p with
  | nil => exact le_refl _
  | cons y r =>
    rw [pathWeight_cons_cons, W.toReal_add]
    have h1 := wt_nonneg es h x y
    linarith

theorem pathWeight_append_ge (es : List Edge) (h : ∀ e ∈ es, 0 ≤ e.2.2.toReal)
    (a b : List Node) :
    (pathWeight es b).toReal ≤ (pathWeight es (a ++ b)).toReal := by
  induction a with
  | nil => exact le_refl _
  | cons x a ih =>
    calc (pathWeight es b).toReal ≤ (pathWeight es (a ++ b)).toReal := ih
    _ ≤ (pathWeight es (x :: (a ++ b))).toReal := pathWeight_cons_ge es h x (a ++ b)

/-- Cycle removal: every chain contains a duplicate-free chain with the same
endpoints, contained in it, of no greater total weight. -/
theorem exists_simple_subchain (es : List Edge) (h : ∀ e ∈ es, 0 ≤ e.2.2.toReal) :
    ∀ p : List Node, List.Chain' (adjRel es) p →
      ∃ q : List Node, q.Nodup ∧ List.Chain' (adjRel es) q ∧ q.head? = p.head? ∧
        q.getLast? = p.getLast? ∧ (∀ x ∈ q, x ∈ p) ∧
        (pathWeight es q).toReal ≤ (pathWeight es p).toReal := by
  intro p
  induction p with
  | nil =>
    intro _
    exact ⟨[], List.nodup_nil, List.chain'_nil, rfl, rfl,
      fun x hx => absurd hx (List.not_mem_nil x), le_refl _⟩
  | cons u rest ih =>
    intro hch
    cases rest with
    | nil =>
      exact ⟨[u], List.nodup_singleton u, List.chain'_singleton u, rfl, rfl,
        fun x hx => hx, le_refl _⟩
    | cons v r =>
      have hadj : adjRel es u v := (List.chain'_cons.mp hch).1
      have hch' : List.Chain' (adjRel es) (v :: r) := (List.chain'_cons.mp hch).2
      obtain ⟨q', hnd', hch'', hhead', hlast', hsub', hcost'⟩ := ih hch'
      have hq' : ∃ q'', q' = v :: q'' := by
        cases q' with
        | nil => exact absurd hhead'.symm (by simp)
        | cons w q'' =>
          have : w = v := by
            have := hhead'
            simp only [List.head?_cons] at this
            exact Option.some.inj this
          exact ⟨q'', by rw [this]⟩
      obtain ⟨q'', hq''⟩ := hq'
      by_cases hu : u ∈ q'
      · -- shortcut: drop the cycle from `u` back to its occurrence in `q'`
        obtain ⟨l₁, l₂, hsplit⟩ := List.append_of_mem hu
        refine ⟨u :: l₂, ?_, ?_, rfl, ?_, ?_, ?_⟩
        · have hsb : (u :: l₂).Sublist q' := by
            rw [hsplit]
            exact (List.sublist_append_right l₁ (u :: l₂))
          exact hnd'.sublist hsb
        · have := hch''
          rw [hsplit] at this
          exact this.right_of_append
        · rw [hsplit, List.getLast?_append_cons] at hlast'
          rw [List.getLast?_cons_cons]
          exact hlast'
        · intro x hx
          rcases List.mem_cons.mp hx with hxu | hxl
          · rw [hxu]; exact List.mem_cons_self u (v :: r)
          · have : x ∈ q' := by rw [hsplit]; exact List.mem_append_right l₁ (List.mem_cons_of_mem u hxl)
            exact List.mem_cons_of_mem u (hsub' x this)
        · have h1 : (pathWeight es (u :: l₂)).toReal ≤ (pathWeight es q').toReal := by
            rw [hsplit]
            exact pathWeight_append_ge es h l₁ (u :: l₂)
          have h2 : (pathWeight es (v :: r)).toReal ≤ (pathWeight es (u :: v :: r)).toReal :=
            pathWeight_cons_ge es h u (v :: r)
          linarith
      · -- `u` is fresh: prepend it
        refine ⟨u :: q', List.Nodup.cons hu hnd', ?_, rfl, ?_, ?_, ?_⟩
        · rw [hq'']
          rw [hq''] at hch''
          exact List.Chain'.cons hadj hch''
        · rw [hq'', List.getLast?_cons_cons, ← hq'', hlast', List.getLast?_cons_cons]
        · intro x hx
          rcases List.mem_cons.mp hx with hxu | hxl
          · rw [hxu]; exact List.mem_cons_self u (v :: r)
          · exact List.mem_cons_of_mem u (hsub' x hxl)
        · rw [hq'', pathWeight_cons_cons, pathWeight_cons_cons, W.toReal_add, W.toReal_add]
          rw [hq''] at hcost'
          linarith

/-! ### Lemmas about the simple-path enumeration -/

theorem hasEdge_iff (es : List Edge) (u v : Node) :
    hasEdge es u v = true ↔
      ∃ e ∈ es, (e.1 = u ∧ e.2.1 = v) ∨ (e.1 = v ∧ e.2.1 = u) := by
  unfold hasEdge matchEdge
  simp only [List.any_eq_true, decide_eq_true_eq]

theorem mem_adjN_of_hasEdge {es : List Edge} {u v : Node}
    (h : hasEdge es u v = true) (hne : u ≠ v) : v ∈ adjN es u := by
  obtain ⟨e, he, hm⟩ := (hasEdge_iff es u v).mp h
  unfold adjN
  rw [List.mem_filterMap]
  refine ⟨e, he, ?_⟩
  rcases hm with ⟨h1, h2⟩ | ⟨h1, h2⟩
  · rw [if_pos h1, h2]
  · have hne1 : ¬ e.1 = u := by rw [h1]; exact fun hc => hne hc.symm
    rw [if_neg hne1, if_pos h2, h1]

theorem hasEdge_of_mem_adjN {es : List Edge} {u v : Node} (h : v ∈ adjN es u) :
    hasEdge es u v = true := by
  unfold adjN at h
  rw [List.mem_filterMap] at h
  obtain ⟨e, he, hm⟩ := h
  rw [hasEdge_iff]
  refine ⟨e, he, ?_⟩
  by_cases h1 : e.1 = u
  · rw [if_pos h1] at hm
    exact Or.inl ⟨h1, Option.some.inj hm⟩
  · rw [if_neg h1] at hm
    by_cases h2 : e.2.1 = u
    · rw [if_pos h2] at hm
      exact Or.inr ⟨Option.some.inj hm, h2⟩
    · rw [if_neg h2] at hm
      exact Option.noConfusion hm

theorem pathsAux_sound (es : List Edge) (t : Node) :
    ∀ (fuel : ℕ) (u : Node) (vis : List Node) (p : List Node), u ∉ vis →
      p ∈ pathsAux es t fuel u vis →
      p.head? = some u ∧ p.getLast? = some t ∧ List.Chain' (adjRel es) p ∧ p.Nodup ∧
        ∀ x ∈ p, x ∉ vis := by
  intro fuel
  induction fuel with
  | zero =>
    intro u vis p hu hp
    unfold pathsAux at hp
    by_cases ht : u = t
    · rw [if_pos ht] at hp
      have hpu : p = [u] := by
        rcases List.mem_singleton.mp hp with h
        exact h
      subst hpu
      subst ht
      exact ⟨rfl, rfl, List.chain'_singleton u, List.nodup_singleton u,
        fun x hx => by rw [List.mem_singleton.mp hx]; exact hu⟩
    · rw [if_neg ht] at hp
      exact absurd hp (List.not_mem_nil p)
  | succ fuel ih =>
    intro u vis p hu hp
    unfold pathsAux at hp
    by_cases ht : u = t
    · rw [if_pos ht] at hp
      have hpu : p = [u] := List.mem_singleton.mp hp
      subst hpu
      subst ht
      exact ⟨rfl, rfl, List.chain'_singleton u, List.nodup_singleton u,
        fun x hx => by rw [List.mem_singleton.mp hx]; exact hu⟩
    · rw [if_neg ht] at hp
      rw [List.mem_flatMap] at hp
      obtain ⟨v, hvmem, hpmem⟩ := hp
      rw [List.mem_filter] at hvmem
      obtain ⟨hvadj, hvfil⟩ := hvmem
      have hvnot : v ∉ u :: vis := by
        have := hvfil
        rw [Bool.not_eq_eq_eq_not, Bool.not_true, decide_eq_false_iff_not] at this
        exact this
      rw [List.mem_map] at hpmem
      obtain ⟨p', hp', hpp⟩ := hpmem
      obtain ⟨hh, hl, hc, hn, hd⟩ := ih v (u :: vis) p' hvnot hp'
      obtain ⟨p'', hp''⟩ : ∃ p'', p' = v :: p'' := by
        cases p' with
        | nil => exact Option.noConfusion hh
        | cons w l => exact ⟨l, by rw [Option.some.inj hh]⟩
      subst hpp
      refine ⟨rfl, ?_, ?_, ?_, ?_⟩
      · rw [hp'', List.getLast?_cons_cons, ← hp'']
        exact hl
      · rw [hp'']
        refine List.Chain'.cons ?_ (by rw [← hp'']; exact hc)
        exact hasEdge_of_mem_adjN hvadj
      · refine List.Nodup.cons ?_ hn
        intro huc
        exact (hd u huc) (List.mem_cons_self u vis)
      · intro x hx
        rcases List.mem_cons.mp hx with hxu | hxp
        · rw [hxu]; exact hu
        · exact fun hxv => (hd x hxp) (List.mem_cons_of_mem u hxv)

theorem pathsAux_complete (es : List Edge) (t : Node) :
    ∀ (fuel : ℕ) (p : List Node) (u : Node) (vis : List Node),
      p.head? = some u → p.getLast? = some t → List.Chain' (adjRel es) p → p.Nodup →
      (∀ x ∈ p, x ∉ vis) → p.length ≤ fuel + 1 → p ∈ pathsAux es t fuel u vis := by
  intro fuel
  induction fuel with
  | zero =>
    intro p u vis hh hl hc hn hd hlen
    obtain ⟨rest, hrest⟩ : ∃ rest, p = u :: rest := by
      cases p with
      | nil => exact Option.noConfusion hh
      | cons w l => exact ⟨l, by rw [Option.some.inj hh]⟩
    subst hrest
    have hrnil : rest = [] := by
      cases rest with
      | nil => rfl
      | cons w l =>
        exfalso
        have : (u :: w :: l).length ≤ 1 := hlen
        simp only [List.length_cons] at this
        omega
    subst hrnil
    have hut : u = t := by
      have : some u = some t := by rw [← hl]; rfl
      exact Option.some.inj this
    unfold pathsAux
    rw [if_pos hut]
    exact List.mem_singleton.mpr rfl
  | succ fuel ih =>
    intro p u vis hh hl hc hn hd hlen
    obtain ⟨rest, hrest⟩ : ∃ rest, p = u :: rest := by
      cases p with
      | nil => exact Option.noConfusion hh
      | cons w l => exact ⟨l, by rw [Option.some.inj hh]⟩
    subst hrest
    by_cases hut : u = t
    · have hrnil : rest = [] := by
        cases rest with
        | nil => rfl
        | cons w l =>
          exfalso
          have hlast : (w :: l).getLast? = some t :=
            (List.getLast?_cons_cons).symm.trans hl
          have htm : t ∈ w :: l := List.mem_of_getLast?_eq_some hlast
          have hnd := List.nodup_cons.mp hn
          rw [hut] at hnd
          exact hnd.1 htm
      subst hrnil
      unfold pathsAux
      rw [if_pos hut]
      exact List.mem_singleton.mpr rfl
    · obtain ⟨v, r, hvr⟩ : ∃ v r, rest = v :: r := by
        cases rest with
        | nil =>
          exfalso
          have : some u = some t := by rw [← hl]; rfl
          exact hut (Option.some.inj this)
        | cons w l => exact ⟨w, l, rfl⟩
      subst hvr
      have hnd := List.nodup_cons.mp hn
      have huv : u ≠ v := fun hc => hnd.1 (by rw [hc]; exact List.mem_cons_self v r)
      have hadj : adjRel es u v := (List.chain'_cons.mp hc).1
      unfold pathsAux
      rw [if_neg hut]
      rw [List.mem_flatMap]
      refine ⟨v, ?_, ?_⟩
      · rw [List.mem_filter]
        refine ⟨mem_adjN_of_hasEdge hadj huv, ?_⟩
        rw [Bool.not_eq_eq_eq_not, Bool.not_true, decide_eq_false_iff_not]
        intro hvc
        rcases List.mem_cons.mp hvc with hvu | hvv
        · exact huv hvu.symm
        · exact (hd v (List.mem_cons_of_mem u (List.mem_cons_self v r))) hvv
      · rw [List.mem_map]
        refine ⟨v :: r, ?_, rfl⟩
        refine ih (v :: r) v (u :: vis) rfl ?_ ?_ ?_ ?_ ?_
        · exact (List.getLast?_cons_cons).symm.trans hl
        · exact (List.chain'_cons.mp hc).2
        · exact hnd.2
        · intro x hx
          intro hxc
          rcases List.mem_cons.mp hxc with hxu | hxv
          · exact hnd.1 (by rw [← hxu]; exact hx)
          · exact (hd x (List.mem_cons_of_mem u hx)) hxv
        · have : (u :: v :: r).length ≤ fuel + 1 + 1 := hlen
          simp only [List.length_cons] at this ⊢
          omega

/-! ### Lemmas about the modelled A* search -/

theorem astar_path_isWalk {xy : List (Node × (ℚ × ℚ))} {es : List Edge} {s t : Node}
    {p : List Node} (h : astar_path xy es s t = some p) :
    isWalk es p s t ∧ p.Nodup := by
  have hmem : p ∈ pathsAux es t xy.length s [] := selectMin_mem h
  obtain ⟨hh, hl, hc, hn, _⟩ :=
    pathsAux_sound es t xy.length s [] p (List.not_mem_nil s) hmem
  refine ⟨⟨?_, hh, hl, hc⟩, hn⟩
  intro hnil
  rw [hnil] at hh
  exact Option.noConfusion hh

theorem mem_keys_of_adj {xy : List (Node × (ℚ × ℚ))} {es : List Edge}
    (hend : ∀ e ∈ es, e.1 ∈ xy.map Prod.fst ∧ e.2.1 ∈ xy.map Prod.fst)
    {x y : Node} (h : adjRel es x y ∨ adjRel es y x) : x ∈ xy.map Prod.fst := by
  rcases h with h | h
  · obtain ⟨e, he, hm⟩ := (hasEdge_iff es x y).mp h
    rcases hm with ⟨h1, _⟩ | ⟨_, h2⟩
    · rw [← h1]; exact (hend e he).1
    · rw [← h2]; exact (hend e he).2
  · obtain ⟨e, he, hm⟩ := (hasEdge_iff es y x).mp h
    rcases hm with ⟨_, h2⟩ | ⟨h1, _⟩
    · rw [← h2]; exact (hend e he).2
    · rw [← h1]; exact (hend e he).1

theorem chain'_mem_adj {es : List Edge} :
    ∀ (q : List Node), List.Chain' (adjRel es) q → 2 ≤ q.length →
      ∀ x ∈ q, ∃ y, adjRel es x y ∨ adjRel es y x := by
  intro q
  induction q with
  | nil => intro _ hq; exact absurd hq (by simp)
  | cons a rest ih =>
    intro hc hq x hx
    cases rest with
    | nil => simp only [List.length_cons, List.length_nil] at hq; omega
    | cons b r =>
      have hab : adjRel es a b := (List.chain'_cons.mp hc).1
      rcases List.mem_cons.mp hx with hxa | hxrest
      · exact ⟨b, Or.inl (by rw [hxa]; exact hab)⟩
      · cases r with
        | nil =>
          have hxb : x = b := List.mem_singleton.mp hxrest
          exact ⟨a, Or.inr (by rw [hxb]; exact hab)⟩
        | cons c r' =>
          exact ih (List.chain'_cons.mp hc).2 (by simp) x hxrest

theorem walk_mem_keys {xy : List (Node × (ℚ × ℚ))} {es : List Edge}
    (hend : ∀ e ∈ es, e.1 ∈ xy.map Prod.fst ∧ e.2.1 ∈ xy.map Prod.fst)
    {q : List Node} {s t : Node} (hw : isWalk es q s t) (hs : s ∈ xy.map Prod.fst) :
    ∀ x ∈ q, x ∈ xy.map Prod.fst := by
  obtain ⟨hne, hh, hl, hc⟩ := hw
  intro x hx
  cases q with
  | nil => exact absurd rfl hne
  | cons a rest =>
    cases rest with
    | nil =>
      have hxa : x = a := List.mem_singleton.mp hx
      have has : a = s := Option.some.inj hh
      rw [hxa, has]
      exact hs
    | cons b r =>
      obtain ⟨y, hy⟩ := chain'_mem_adj (a :: b :: r) hc (by simp) x hx
      exact mem_keys_of_adj hend hy

theorem nodup_subset_length_le {p L : List Node} (hn : p.Nodup) (hsub : ∀ x ∈ p, x ∈ L) :
    p.length ≤ L.length := by
  have h1 : p.toFinset.card = p.length := List.toFinset_card_of_nodup hn
  have h2 : p.toFinset ⊆ L.toFinset := by
    intro x hx
    rw [List.mem_toFinset] at hx ⊢
    exact hsub x hx
  have h3 := Finset.card_le_card h2
  have h4 := L.toFinset_card_le
  omega

theorem astar_path_complete {xy : List (Node × (ℚ × ℚ))} {es : List Edge} {s t : Node}
    (hnn : ∀ e ∈ es, 0 ≤ e.2.2.toReal)
    (hend : ∀ e ∈ es, e.1 ∈ xy.map Prod.fst ∧ e.2.1 ∈ xy.map Prod.fst)
    (hs : s ∈ xy.map Prod.fst)
    {q : List Node} (hw : isWalk es q s t) :
    ∃ p, astar_path xy es s t = some p ∧
      (pathWeight es p).toReal ≤ (pathWeight es q).toReal := by
  obtain ⟨hne, hh, hl, hc⟩ := hw
  obtain ⟨q', hnd', hch', hhead', hlast', hsub', hcost'⟩ := exists_simple_subchain es hnn q hc
  have hmemq' : q' ∈ pathsAux es t xy.length s [] := by
    refine pathsAux_complete es t xy.length q' s [] ?_ ?_ hch' hnd' ?_ ?_
    · rw [hhead']; exact hh
    · rw [hlast']; exact hl
    · intro x _; exact List.not_mem_nil x
    · have hsubkeys : ∀ x ∈ q', x ∈ xy.map Prod.fst := by
        intro x hx
        exact walk_mem_keys hend ⟨hne, hh, hl, hc⟩ hs x (hsub' x hx)
      have := nodup_subset_length_le hnd' hsubkeys
      rw [List.length_map] at this
      omega
  have hnonempty : pathsAux es t xy.length s [] ≠ [] := by
    intro hc'
    rw [hc'] at hmemq'
    exact List.not_mem_nil q' hmemq'
  have hsome := @selectMin_isSome (pathWeight es) _ hnonempty
  obtain ⟨p, hp⟩ := Option.isSome_iff_exists.mp hsome
  refine ⟨p, hp, ?_⟩
  have h1 := selectMin_le hp q' hmemq'
  linarith

theorem astar_path_min {xy : List (Node × (ℚ × ℚ))} {es : List Edge} {s t : Node}
    {p : List Node} (h : astar_path xy es s t = some p)
    (hnn : ∀ e ∈ es, 0 ≤ e.2.2.toReal)
    (hend : ∀ e ∈ es, e.1 ∈ xy.map Prod.fst ∧ e.2.1 ∈ xy.map Prod.fst)
    (hs : s ∈ xy.map Prod.fst) :
    ∀ q, isWalk es q s t → (pathWeight es p).toReal ≤ (pathWeight es q).toReal := by
  intro q hw
  obtain ⟨p', hp', hc'⟩ := astar_path_complete hnn hend hs hw
  rw [h] at hp'
  rw [Option.some.inj hp']
  exact hc'

theorem astar_path_none_of_no_walk {xy : List (Node × (ℚ × ℚ))} {es : List Edge}
    {s t : Node} (h : ∀ q, ¬ isWalk es q s t) : astar_path xy es s t = none := by
  cases hp : astar_path xy es s t with
  | none => rfl
  | some p =>
    exfalso
    exact h p (astar_path_isWalk hp).1

/-! ### Lemmas about the lattice construction -/

theorem foldl_min_le (f : Poly → ℚ) :
    ∀ (ps : List Poly) (a : ℚ),
      ps.foldl (fun m q => min m (f q)) a ≤ a ∧
      ∀ q ∈ ps, ps.foldl (fun m q => min m (f q)) a ≤ f q := by
  intro ps
  induction ps with
  | nil => intro a; exact ⟨le_refl a, fun q hq => absurd hq (List.not_mem_nil q)⟩
  | cons p ps ih =>
    intro a
    simp only [List.foldl_cons]
    obtain ⟨h1, h2⟩ := ih (min a (f p))
    refine ⟨le_trans h1 (min_le_left a (f p)), ?_⟩
    intro q hq
    rcases List.mem_cons.mp hq with hqp | hqs
    · rw [hqp]; exact le_trans h1 (min_le_right a (f p))
    · exact h2 q hqs

theorem foldl_le_max (f : Poly → ℚ) :
    ∀ (ps : List Poly) (a : ℚ),
      a ≤ ps.foldl (fun m q => max m (f q)) a ∧
      ∀ q ∈ ps, f q ≤ ps.foldl (fun m q => max m (f q)) a := by
  intro ps
  induction ps with
  | nil => intro a; exact ⟨le_refl a, fun q hq => absurd hq (List.not_mem_nil q)⟩
  | cons p ps ih =>
    intro a
    simp only [List.foldl_cons]
    obtain ⟨h1, h2⟩ := ih (max a (f p))
    refine ⟨le_trans (le_max_left a (f p)) h1, ?_⟩
    intro q hq
    rcases List.mem_cons.mp hq with hqp | hqs
    · rw [hqp]; exact le_trans (le_max_right a (f p)) h1
    · exact h2 q hqs

theorem bMinX_le {polys : List Poly} {p : Poly} (hp : p ∈ polys) : bMinX polys ≤ p.minx := by
  cases polys with
  | nil => exact absurd hp (List.not_mem_nil p)
  | cons r rs =>
    show rs.foldl (fun m q => min m q.minx) r.minx ≤ p.minx
    rcases List.mem_cons.mp hp with hpr | hps
    · rw [hpr]; exact (foldl_min_le Poly.minx rs r.minx).1
    · exact (foldl_min_le Poly.minx rs r.minx).2 p hps

theorem bMinY_le {polys : List Poly} {p : Poly} (hp : p ∈ polys) : bMinY polys ≤ p.miny := by
  cases polys with
  | nil => exact absurd hp (List.not_mem_nil p)
  | cons r rs =>
    show rs.foldl (fun m q => min m q.miny) r.miny ≤ p.miny
    rcases List.mem_cons.mp hp with hpr | hps
    · rw [hpr]; exact (foldl_min_le Poly.miny rs r.miny).1
    · exact (foldl_min_le Poly.miny rs r.miny).2 p hps

theorem le_bMaxX {polys : List Poly} {p : Poly} (hp : p ∈ polys) : p.maxx ≤ bMaxX polys := by
  cases polys with
  | nil => exact absurd hp (List.not_mem_nil p)
  | cons r rs =>
    show p.maxx ≤ rs.foldl (fun m q => max m q.maxx) r.maxx
    rcases List.mem_cons.mp hp with hpr | hps
    · rw [hpr]; exact (foldl_le_max Poly.maxx rs r.maxx).1
    · exact (foldl_le_max Poly.maxx rs r.maxx).2 p hps

theorem le_bMaxY {polys : List Poly} {p : Poly} (hp : p ∈ polys) : p.maxy ≤ bMaxY polys := by
  cases polys with
  | nil => exact absurd hp (List.not_mem_nil p)
  | cons r rs =>
    show p.maxy ≤ rs.foldl (fun m q => max m q.maxy) r.maxy
    rcases List.mem_cons.mp hp with hpr | hps
    · rw [hpr]; exact (foldl_le_max Poly.maxy rs r.maxy).1
    · exact (foldl_le_max Poly.maxy rs r.maxy).2 p hps

theorem covers_in_bounds {polys : List Poly} {x y : ℚ}
    (h : regionCovers polys x y = true) :
    bMinX polys ≤ x ∧ x ≤ bMaxX polys ∧ bMinY polys ≤ y ∧ y ≤ bMaxY polys := by
  unfold regionCovers at h
  rw [List.any_eq_true] at h
  obtain ⟨p, hp, hc⟩ := h
  obtain ⟨h1, h2, h3, h4⟩ := p.covers_bbox x y hc
  exact ⟨le_trans (bMinX_le hp) h1, le_trans h2 (le_bMaxX hp),
    le_trans (bMinY_le hp) h3, le_trans h4 (le_bMaxY hp)⟩

theorem treeQuery_of_covers {polys : List Poly} {x y : ℚ}
    (h : regionCovers polys x y = true) : treeQueryNonempty polys x y = true := by
  unfold regionCovers at h
  rw [List.any_eq_true] at h
  obtain ⟨p, hp, hc⟩ := h
  obtain ⟨h1, h2, h3, h4⟩ := p.covers_bbox x y hc
  unfold treeQueryNonempty
  rw [List.any_eq_true]
  exact ⟨p, hp, by unfold inBBox; exact decide_eq_true ⟨h1, h2, h3, h4⟩⟩

theorem mem_idxRange {cells i : ℤ} : i ∈ idxRange cells ↔ 0 ≤ i ∧ i < cells + 1 := by
  unfold idxRange
  rw [List.mem_map]
  constructor
  · rintro ⟨n, hn, rfl⟩
    rw [List.mem_range] at hn
    exact ⟨Int.ofNat_nonneg n, Int.lt_toNat.mp hn⟩
  · rintro ⟨h0, hlt⟩
    refine ⟨i.toNat, ?_, Int.toNat_of_nonneg h0⟩
    rw [List.mem_range]
    rw [← Int.toNat_of_nonneg h0] at hlt
    exact Int.lt_toNat.mpr (by exact_mod_cast hlt)

theorem mem_buildNodes {polys : List Poly} {g : GridSpec} {nd : Node × (ℚ × ℚ)} :
    nd ∈ buildNodes polys g ↔
      ∃ i j : ℤ,
        (0 ≤ i ∧ i < ⌊(bMaxX polys - bMinX polys) / g.spacing_m⌋ + 2) ∧
        (0 ≤ j ∧ j < ⌊(bMaxY polys - bMinY polys) / g.spacing_m⌋ + 2) ∧
        treeQueryNonempty polys (bMinX polys + (i : ℚ) * g.spacing_m)
          (bMinY polys + (j : ℚ) * g.spacing_m) = true ∧
        regionCovers polys (bMinX polys + (i : ℚ) * g.spacing_m)
          (bMinY polys + (j : ℚ) * g.spacing_m) = true ∧
        nd = ((i, j), (bMinX polys + (i : ℚ) * g.spacing_m,
          bMinY polys + (j : ℚ) * g.spacing_m)) := by
  unfold buildNodes
  rw [List.mem_flatMap]
  constructor
  · rintro ⟨i, hi, hnd⟩
    rw [List.mem_filterMap] at hnd
    obtain ⟨j, hj, hcond⟩ := hnd
    rw [mem_idxRange] at hi hj
    by_cases hc : (treeQueryNonempty polys (bMinX polys + (i : ℚ) * g.spacing_m)
        (bMinY polys + (j : ℚ) * g.spacing_m) &&
        regionCovers polys (bMinX polys + (i : ℚ) * g.spacing_m)
          (bMinY polys + (j : ℚ) * g.spacing_m)) = true
    · rw [if_pos hc] at hcond
      obtain ⟨hc1, hc2⟩ := Bool.and_eq_true_iff.mp hc
      refine ⟨i, j, ⟨hi.1, by omega⟩, ⟨hj.1, by omega⟩, hc1, hc2, (Option.some.inj hcond).symm⟩
    · rw [if_neg hc] at hcond
      exact Option.noConfusion hcond
  · rintro ⟨i, j, hi, hj, hc1, hc2, hnd⟩
    refine ⟨i, mem_idxRange.mpr ⟨hi.1, by omega⟩, ?_⟩
    rw [List.mem_filterMap]
    refine ⟨j, mem_idxRange.mpr ⟨hj.1, by omega⟩, ?_⟩
    rw [if_pos (Bool.and_eq_true_iff.mpr ⟨hc1, hc2⟩), hnd]

theorem buildNodes_coord {polys : List Poly} {g : GridSpec} {nd : Node × (ℚ × ℚ)}
    (h : nd ∈ buildNodes polys g) :
    nd.2 = (bMinX polys + (nd.1.1 : ℚ) * g.spacing_m,
      bMinY polys + (nd.1.2 : ℚ) * g.spacing_m) ∧
    0 ≤ nd.1.1 ∧ 0 ≤ nd.1.2 ∧
    regionCovers polys nd.2.1 nd.2.2 = true := by
  obtain ⟨i, j, hi, hj, _, hc2, hnd⟩ := mem_buildNodes.mp h
  rw [hnd]
  exact ⟨rfl, hi.1, hj.1, hc2⟩

theorem idxRange_nodup (cells : ℤ) : (idxRange cells).Nodup := by
  unfold idxRange
  exact List.Nodup.map (fun a b hab => Int.ofNat_inj.mp hab) (List.nodup_range _)

theorem buildNodes_keys_nodup (polys : List Poly) (g : GridSpec) :
    ((buildNodes polys g).map Prod.fst).Nodup := by
  rw [List.Nodup, List.pairwise_map]
  unfold buildNodes
  rw [List.pairwise_flatMap]
  constructor
  · intro i _
    rw [List.pairwise_filterMap]
    refine (idxRange_nodup (⌊(bMaxY polys - bMinY polys) / g.spacing_m⌋ + 1)).imp ?_
    intro j j' hjj b hb b' hb'
    simp only [Option.mem_def] at hb hb'
    by_cases hcb : (treeQueryNonempty polys (bMinX polys + (i : ℚ) * g.spacing_m)
        (bMinY polys + (j : ℚ) * g.spacing_m) &&
        regionCovers polys (bMinX polys + (i : ℚ) * g.spacing_m)
          (bMinY polys + (j : ℚ) * g.spacing_m)) = true
    · rw [if_pos hcb] at hb
      by_cases hcb' : (treeQueryNonempty polys (bMinX polys + (i : ℚ) * g.spacing_m)
          (bMinY polys + (j' : ℚ) * g.spacing_m) &&
          regionCovers polys (bMinX polys + (i : ℚ) * g.spacing_m)
            (bMinY polys + (j' : ℚ) * g.spacing_m)) = true
      · rw [if_pos hcb'] at hb'
        rw [← Option.some.inj hb, ← Option.some.inj hb']
        intro hc
        exact hjj (congrArg Prod.snd hc)
      · rw [if_neg hcb'] at hb'; exact Option.noConfusion hb'
    · rw [if_neg hcb] at hb; exact Option.noConfusion hb
  · refine (idxRange_nodup (⌊(bMaxX polys - bMinX polys) / g.spacing_m⌋ + 1)).imp ?_
    intro i i' hii x hx y hy
    rw [List.mem_filterMap] at hx hy
    obtain ⟨j, _, hj⟩ := hx
    obtain ⟨j', _, hj'⟩ := hy
    intro hc
    have hxi : x.1.1 = i := by
      by_cases hcb : (treeQueryNonempty polys (bMinX polys + (i : ℚ) * g.spacing_m)
          (bMinY polys + (j : ℚ) * g.spacing_m) &&
          regionCovers polys (bMinX polys + (i : ℚ) * g.spacing_m)
            (bMinY polys + (j : ℚ) * g.spacing_m)) = true
      · rw [if_pos hcb] at hj; rw [← Option.some.inj hj]
      · rw [if_neg hcb] at hj; exact Option.noConfusion hj
    have hyi : y.1.1 = i' := by
      by_cases hcb : (treeQueryNonempty polys (bMinX polys + (i' : ℚ) * g.spacing_m)
          (bMinY polys + (j' : ℚ) * g.spacing_m) &&
          regionCovers polys (bMinX polys + (i' : ℚ) * g.spacing_m)
            (bMinY polys + (j' : ℚ) * g.spacing_m)) = true
      · rw [if_pos hcb] at hj'; rw [← Option.some.inj hj']
      · rw [if_neg hcb] at hj'; exact Option.noConfusion hj'
    apply hii
    rw [← hxi, ← hyi, hc]

/-! ### Lemmas about the edge assembly -/

theorem get_grid_graph_ok_elim {polys : List Poly} {g : GridSpec}
    {xy : List (Node × (ℚ × ℚ))} {es : List Edge}
    (h : get_grid_graph polys g = .ok (xy, es)) :
    g.spacing_m ≠ 0 ∧ xy = buildNodes polys g ∧
      buildEdges (buildNodes polys g) g = .ok es := by
  unfold get_grid_graph at h
  by_cases hs : g.spacing_m = 0
  · rw [if_pos hs] at h
    exact Except.noConfusion h
  · rw [if_neg hs] at h
    cases hbe : buildEdges (buildNodes polys g) g with
    | ok es' =>
      rw [hbe] at h
      have := Except.ok.inj h
      have h1 : xy = buildNodes polys g := (congrArg Prod.fst this).symm
      have h2 : es' = es := congrArg Prod.snd this
      exact ⟨hs, h1, by rw [← h2]⟩
    | error e =>
      rw [hbe] at h
      exact Except.noConfusion h

theorem get_grid_graph_ok_intro {polys : List Poly} {g : GridSpec} {es : List Edge}
    (hs : g.spacing_m ≠ 0) (hbe : buildEdges (buildNodes polys g) g = .ok es) :
    get_grid_graph polys g = .ok (buildNodes polys g, es) := by
  unfold get_grid_graph
  rw [if_neg hs, hbe]

theorem buildEdges_ok_of_neighbors {xy : List (Node × (ℚ × ℚ))} {g : GridSpec}
    {nbs : List (ℤ × ℤ × W)} (h : g.neighbors = .ok nbs) :
    buildEdges xy g =
      .ok (xy.foldl (fun es p => addEdgesForNode xy g.spacing_m p.1 nbs es) []) := by
  have hrw : buildEdges xy g = xy.foldlM (fun es p => do
      let nbs' ← (.ok nbs : Except Err (List (ℤ × ℤ × W)))
      pure (addEdgesForNode xy g.spacing_m p.1 nbs' es)) [] := by
    unfold buildEdges
    rw [h]
  rw [hrw]
  suffices haux : ∀ (l : List (Node × (ℚ × ℚ))) (init : List Edge),
      (l.foldlM (fun es p => do
        let nbs' ← (.ok nbs : Except Err (List (ℤ × ℤ × W)))
        pure (addEdgesForNode xy g.spacing_m p.1 nbs' es)) init : Except Err (List Edge)) =
        .ok (l.foldl (fun es p => addEdgesForNode xy g.spacing_m p.1 nbs es) init) by
    exact haux xy []
  intro l
  induction l with
  | nil => intro init; rfl
  | cons p l ih =>
    intro init
    rw [List.foldlM_cons, List.foldl_cons]
    exact ih (addEdgesForNode xy g.spacing_m p.1 nbs init)

theorem buildEdges_neighbors_error {xy : List (Node × (ℚ × ℚ))} {g : GridSpec} {err : Err}
    (h : g.neighbors = .error err) :
    buildEdges xy g = match xy with
      | [] => .ok []
      | _ :: _ => .error err := by
  unfold buildEdges
  cases xy with
  | nil => rfl
  | cons p l =>
    rw [List.foldlM_cons, h]
    rfl

theorem addEdgesForNode_preserve {xy : List (Node × (ℚ × ℚ))} {s : ℚ} {node : Node}
    (P : Edge → Prop) :
    ∀ (nbs : List (ℤ × ℤ × W)) (es : List Edge), (∀ e ∈ es, P e) →
      (∀ d ∈ nbs, xy.any (fun p => decide (p.1 = (node.1 + d.1, node.2 + d.2.1))) = true →
        P (node, (node.1 + d.1, node.2 + d.2.1), W.mk (s * d.2.2.a) (s * d.2.2.b))) →
      ∀ e ∈ addEdgesForNode xy s node nbs es, P e := by
  intro nbs
  induction nbs with
  | nil => intro es hP _ e he; exact hP e he
  | cons d nbs ih =>
    intro es hP hnew e he
    have hstep : addEdgesForNode xy s node (d :: nbs) es =
        addEdgesForNode xy s node nbs
          (if (xy.any (fun p => decide (p.1 = (node.1 + d.1, node.2 + d.2.1))) &&
              !hasEdge es node (node.1 + d.1, node.2 + d.2.1)) = true then
            es ++ [(node, (node.1 + d.1, node.2 + d.2.1), W.mk (s * d.2.2.a) (s * d.2.2.b))]
          else es) := rfl
    rw [hstep] at he
    refine ih _ ?_ (fun d' hd' ha => hnew d' (List.mem_cons_of_mem d hd') ha) e he
    intro e' he'
    by_cases hcond : (xy.any (fun p => decide (p.1 = (node.1 + d.1, node.2 + d.2.1))) &&
        !hasEdge es node (node.1 + d.1, node.2 + d.2.1)) = true
    · rw [if_pos hcond] at he'
      rcases List.mem_append.mp he' with hmem | hmem
      · exact hP e' hmem
      · rw [List.mem_singleton.mp hmem]
        exact hnew d (List.mem_cons_self d nbs) (Bool.and_eq_true_iff.mp hcond).1
    · rw [if_neg hcond] at he'
      exact hP e' he'

/-- Two stored edges connect the same unordered node pair. -/
def sameUnordered (e e' : Edge) : Prop :=
  (e.1 = e'.1 ∧ e.2.1 = e'.2.1) ∨ (e.1 = e'.2.1 ∧ e.2.1 = e'.1)

theorem not_sameUnordered_of_hasEdge_false {es : List Edge} {u v : Node} {w : W}
    (h : hasEdge es u v = false) : ∀ e ∈ es, ¬ sameUnordered e (u, v, w) := by
  intro e he hsame
  have : hasEdge es u v = true := by
    rw [hasEdge_iff]
    refine ⟨e, he, ?_⟩
    rcases hsame with ⟨h1, h2⟩ | ⟨h1, h2⟩
    · exact Or.inl ⟨h1, h2⟩
    · exact Or.inr ⟨h1, h2⟩
  rw [h] at this
  exact Bool.noConfusion this

theorem addEdgesForNode_pairwise {xy : List (Node × (ℚ × ℚ))} {s : ℚ} {node : Node} :
    ∀ (nbs : List (ℤ × ℤ × W)) (es : List Edge),
      es.Pairwise (fun e e' => ¬ sameUnordered e e') →
      (addEdgesForNode xy s node nbs es).Pairwise (fun e e' => ¬ sameUnordered e e') := by
  intro nbs
  induction nbs with
  | nil => intro es h; exact h
  | cons d nbs ih =>
    intro es h
    unfold addEdgesForNode
    rw [List.foldl_cons]
    refine ih _ ?_
    by_cases hcond : (xy.any (fun p => decide (p.1 = (node.1 + d.1, node.2 + d.2.1))) &&
        !hasEdge es node (node.1 + d.1, node.2 + d.2.1)) = true
    · rw [if_pos hcond]
      rw [List.pairwise_append]
      refine ⟨h, List.pairwise_singleton _ _, ?_⟩
      intro a ha b hb
      rw [List.mem_singleton.mp hb]
      have hne : hasEdge es node (node.1 + d.1, node.2 + d.2.1) = false := by
        have := (Bool.and_eq_true_iff.mp hcond).2
        rw [Bool.not_eq_eq_eq_not, Bool.not_true] at this
        exact this
      exact not_sameUnordered_of_hasEdge_false hne a ha
    · rw [if_neg hcond]
      exact h

theorem buildEdges_pairwise {polys : List Poly} {g : GridSpec} {nbs : List (ℤ × ℤ × W)}
    {es : List Edge} (hnb : g.neighbors = .ok nbs)
    (hb : buildEdges (buildNodes polys g) g = .ok es) :
    es.Pairwise (fun e e' => ¬ sameUnordered e e') := by
  rw [buildEdges_ok_of_neighbors hnb] at hb
  have hes := (Except.ok.inj hb).symm
  rw [hes]
  suffices haux : ∀ (l : List (Node × (ℚ × ℚ))) (init : List Edge),
      init.Pairwise (fun e e' => ¬ sameUnordered e e') →
      (l.foldl (fun es p => addEdgesForNode (buildNodes polys g) g.spacing_m p.1 nbs es)
        init).Pairwise (fun e e' => ¬ sameUnordered e e') by
    exact haux (buildNodes polys g) [] List.Pairwise.nil
  intro l
  induction l with
  | nil => intro init h; exact h
  | cons p l ih =>
    intro init h
    rw [List.foldl_cons]
    exact ih _ (addEdgesForNode_pairwise nbs init h)

/-- The structural description of every assembled edge. -/
def EdgeOK (polys : List Poly) (g : GridSpec) (nbs : List (ℤ × ℤ × W)) (e : Edge) : Prop :=
  ∃ d ∈ nbs, e.2.1 = (e.1.1 + d.1, e.1.2 + d.2.1) ∧
    e.2.2 = W.mk (g.spacing_m * d.2.2.a) (g.spacing_m * d.2.2.b) ∧
    e.1 ∈ (buildNodes polys g).map Prod.fst ∧
    e.2.1 ∈ (buildNodes polys g).map Prod.fst

theorem buildEdges_shape {polys : List Poly} {g : GridSpec} {nbs : List (ℤ × ℤ × W)}
    {es : List Edge} (hnb : g.neighbors = .ok nbs)
    (hb : buildEdges (buildNodes polys g) g = .ok es) :
    ∀ e ∈ es, EdgeOK polys g nbs e := by
  rw [buildEdges_ok_of_neighbors hnb] at hb
  have hes := (Except.ok.inj hb).symm
  rw [hes]
  suffices haux : ∀ (l : List (Node × (ℚ × ℚ))) (init : List Edge),
      (∀ x ∈ l, x ∈ buildNodes polys g) → (∀ e ∈ init, EdgeOK polys g nbs e) →
      ∀ e ∈ l.foldl (fun es p => addEdgesForNode (buildNodes polys g) g.spacing_m p.1 nbs es)
        init, EdgeOK polys g nbs e by
    exact haux (buildNodes polys g) [] (fun x hx => hx)
      (fun e he => absurd he (List.not_mem_nil e))
  intro l
  induction l with
  | nil => intro init _ hInit e he; exact hInit e he
  | cons p l ih =>
    intro init hsub hInit e he
    rw [List.foldl_cons] at he
    refine ih _ (fun x hx => hsub x (List.mem_cons_of_mem p hx)) ?_ e he
    refine addEdgesForNode_preserve (EdgeOK polys g nbs) nbs init hInit ?_
    intro d hd hany
    refine ⟨d, hd, rfl, rfl, ?_, ?_⟩
    · rw [List.mem_map]
      exact ⟨p, hsub p (List.mem_cons_self p l), rfl⟩
    · rw [List.any_eq_true] at hany
      obtain ⟨q, hq, hq1⟩ := hany
      rw [decide_eq_true_eq] at hq1
      rw [List.mem_map]
      exact ⟨q, hq, hq1⟩

theorem neighbors_spec {g : GridSpec} {nbs : List (ℤ × ℤ × W)} (h : g.neighbors = .ok nbs) :
    ∀ d ∈ nbs,
      ((d.1 = 0 ∨ d.2.1 = 0) ∧ ¬(d.1 = 0 ∧ d.2.1 = 0) ∧ d.2.2 = W.mk 1 0) ∨
      (d.1 ≠ 0 ∧ d.2.1 ≠ 0 ∧ d.2.2 = W.mk 0 1) := by
  unfold GridSpec.neighbors at h
  by_cases h4 : g.connectivity = 4
  · rw [if_pos h4] at h
    rw [← Except.ok.inj h]
    decide
  · rw [if_neg h4] at h
    by_cases h8 : g.connectivity = 8
    · rw [if_pos h8] at h
      rw [← Except.ok.inj h]
      decide
    · rw [if_neg h8] at h
      exact Except.noConfusion h

/-! ### Geometry of the built lattice -/

theorem mem_keys_buildNodes_iff {polys : List Poly} {g : GridSpec} (hs : 0 < g.spacing_m)
    (i j : ℤ) :
    ((i, j) : Node) ∈ (buildNodes polys g).map Prod.fst ↔
      regionCovers polys (bMinX polys + (i : ℚ) * g.spacing_m)
        (bMinY polys + (j : ℚ) * g.spacing_m) = true := by
  constructor
  · intro h
    rw [List.mem_map] at h
    obtain ⟨nd, hnd, hkey⟩ := h
    obtain ⟨i', j', hi', hj', hc1, hc2, hndeq⟩ := mem_buildNodes.mp hnd
    rw [hndeq] at hkey
    have hii : i' = i := congrArg Prod.fst hkey
    have hjj : j' = j := congrArg Prod.snd hkey
    rw [← hii, ← hjj]
    exact hc2
  · intro h
    have hb := covers_in_bounds h
    have hi0 : 0 ≤ i := by
      by_contra hneg
      push_neg at hneg
      have hiq : (i : ℚ) < 0 := by exact_mod_cast hneg
      have := mul_neg_of_neg_of_pos hiq hs
      linarith [hb.1]
    have hj0 : 0 ≤ j := by
      by_contra hneg
      push_neg at hneg
      have hjq : (j : ℚ) < 0 := by exact_mod_cast hneg
      have := mul_neg_of_neg_of_pos hjq hs
      linarith [hb.2.2.1]
    have hiup : i < ⌊(bMaxX polys - bMinX polys) / g.spacing_m⌋ + 2 := by
      have h1 : (i : ℚ) * g.spacing_m ≤ bMaxX polys - bMinX polys := by linarith [hb.2.1]
      have h2 : (i : ℚ) ≤ (bMaxX polys - bMinX polys) / g.spacing_m := by
        rw [le_div_iff₀ hs]
        exact h1
      have h3 := Int.le_floor.mpr h2
      omega
    have hjup : j < ⌊(bMaxY polys - bMinY polys) / g.spacing_m⌋ + 2 := by
      have h1 : (j : ℚ) * g.spacing_m ≤ bMaxY polys - bMinY polys := by linarith [hb.2.2.2]
      have h2 : (j : ℚ) ≤ (bMaxY polys - bMinY polys) / g.spacing_m := by
        rw [le_div_iff₀ hs]
        exact h1
      have h3 := Int.le_floor.mpr h2
      omega
    rw [List.mem_map]
    refine ⟨((i, j), (bMinX polys + (i : ℚ) * g.spacing_m,
      bMinY polys + (j : ℚ) * g.spacing_m)), ?_, rfl⟩
    exact mem_buildNodes.mpr
      ⟨i, j, ⟨hi0, hiup⟩, ⟨hj0, hjup⟩, treeQuery_of_covers h, h, rfl⟩

theorem key_zero_of_neg {polys : List Poly} {g : GridSpec} (hs : g.spacing_m < 0)
    {nd : Node × (ℚ × ℚ)} (h : nd ∈ buildNodes polys g) : nd.1 = (0, 0) := by
  obtain ⟨i, j, hi, hj, hc1, hc2, hndeq⟩ := mem_buildNodes.mp h
  have hb := covers_in_bounds hc2
  have hi0 : i = 0 := by
    by_contra hne
    have hpos : 0 < i := lt_of_le_of_ne hi.1 (Ne.symm hne)
    have hiq : (0 : ℚ) < (i : ℚ) := by exact_mod_cast hpos
    have := mul_neg_of_pos_of_neg hiq hs
    linarith [hb.1]
  have hj0 : j = 0 := by
    by_contra hne
    have hpos : 0 < j := lt_of_le_of_ne hj.1 (Ne.symm hne)
    have hjq : (0 : ℚ) < (j : ℚ) := by exact_mod_cast hpos
    have := mul_neg_of_pos_of_neg hjq hs
    linarith [hb.2.2.1]
  rw [hndeq, hi0, hj0]

theorem spacing_pos_of_edge {polys : List Poly} {g : GridSpec}
    {xy : List (Node × (ℚ × ℚ))} {es : List Edge}
    (h : get_grid_graph polys g = .ok (xy, es)) {e : Edge} (he : e ∈ es) :
    0 < g.spacing_m := by
  obtain ⟨hs0, hxy, hbe⟩ := get_grid_graph_ok_elim h
  cases hnb : g.neighbors with
  | error err =>
    rw [buildEdges_neighbors_error hnb] at hbe
    cases hn : buildNodes polys g with
    | nil =>
      rw [hn] at hbe
      have hes : es = [] := (Except.ok.inj hbe).symm
      rw [hes] at he
      exact absurd he (List.not_mem_nil e)
    | cons a l =>
      rw [hn] at hbe
      exact Except.noConfusion hbe
  | ok nbs =>
    obtain ⟨d, hd, heq1, heq2, hm1, hm2⟩ := buildEdges_shape hnb hbe e he
    rcases lt_trichotomy g.spacing_m 0 with hneg | hzero | hpos
    · exfalso
      rw [List.mem_map] at hm1 hm2
      obtain ⟨nd1, hnd1, hk1⟩ := hm1
      obtain ⟨nd2, hnd2, hk2⟩ := hm2
      have hz1 : e.1 = (0, 0) := by rw [← hk1]; exact key_zero_of_neg hneg hnd1
      have hz2 : e.2.1 = (0, 0) := by rw [← hk2]; exact key_zero_of_neg hneg hnd2
      have h11 : e.1.1 = 0 := congrArg Prod.fst hz1
      have h12 : e.1.2 = 0 := congrArg Prod.snd hz1
      rw [heq1] at hz2
      have h21 : e.1.1 + d.1 = 0 := congrArg Prod.fst hz2
      have h22 : e.1.2 + d.2.1 = 0 := congrArg Prod.snd hz2
      have hd1 : d.1 = 0 := by omega
      have hd2 : d.2.1 = 0 := by omega
      rcases neighbors_spec hnb d hd with ⟨_, hne, _⟩ | ⟨hne, _, _⟩
      · exact hne ⟨hd1, hd2⟩
      · exact hne hd1
    · exact absurd hzero hs0
    · exact hpos

/-! ### The heuristic as a metric, and edge weights as distances -/

theorem lookupXY_eq {xy : List (Node × (ℚ × ℚ))} (hnd : (xy.map Prod.fst).Nodup)
    {nd : Node × (ℚ × ℚ)} (h : nd ∈ xy) : lookupXY xy nd.1 = nd.2 := by
  induction xy with
  | nil => exact absurd h (List.not_mem_nil nd)
  | cons a l ih =>
    unfold lookupXY
    by_cases ha : a.1 = nd.1
    · rw [List.find?_cons_of_pos l (decide_eq_true ha)]
      rcases List.mem_cons.mp h with hnda | hndl
      · rw [hnda]
      · exfalso
        have h1 : nd.1 ∈ l.map Prod.fst := List.mem_map.mpr ⟨nd, hndl, rfl⟩
        have h2 := (List.pairwise_cons.mp hnd).1
        exact (h2 nd.1 h1) ha
    · rw [List.find?_cons_of_neg l (by rw [decide_eq_true_eq]; exact ha)]
      have hndl : nd ∈ l := by
        rcases List.mem_cons.mp h with hnda | hndl
        · exact absurd (congrArg Prod.fst hnda).symm ha
        · exact hndl
      have ih' := ih (List.pairwise_cons.mp hnd).2 hndl
      unfold lookupXY at ih'
      exact ih'

theorem lookupXY_built {polys : List Poly} {g : GridSpec} {k : Node}
    (hk : k ∈ (buildNodes polys g).map Prod.fst) :
    lookupXY (buildNodes polys g) k =
      (bMinX polys + (k.1 : ℚ) * g.spacing_m, bMinY polys + (k.2 : ℚ) * g.spacing_m) := by
  rw [List.mem_map] at hk
  obtain ⟨nd, hnd, hk1⟩ := hk
  have hl := lookupXY_eq (buildNodes_keys_nodup polys g) hnd
  obtain ⟨hcoord, _, _, _⟩ := buildNodes_coord hnd
  rw [← hk1, hl, hcoord]

theorem wt_of_hasEdge {es : List Edge} {u v : Node} (h : hasEdge es u v = true) :
    ∃ e ∈ es, matchEdge u v e = true ∧ wt es u v = e.2.2 := by
  unfold wt
  cases hf : es.find? (matchEdge u v) with
  | some e => exact ⟨e, List.mem_of_find?_eq_some hf, List.find?_some hf, rfl⟩
  | none =>
    exfalso
    unfold hasEdge at h
    rw [List.any_eq_true] at h
    obtain ⟨e, he, hm⟩ := h
    exact (List.find?_eq_none.mp hf e he) hm

theorem hEuclid_symm (xy : List (Node × (ℚ × ℚ))) (u v : Node) :
    hEuclid xy u v = hEuclid xy v u := by
  unfold hEuclid
  congr 1
  ring

theorem sqrt_add_sq_triangle (x1 y1 x2 y2 : ℝ) :
    Real.sqrt ((x1 + x2) ^ 2 + (y1 + y2) ^ 2) ≤
      Real.sqrt (x1 ^ 2 + y1 ^ 2) + Real.sqrt (x2 ^ 2 + y2 ^ 2) := by
  have hA : (0 : ℝ) ≤ x1 ^ 2 + y1 ^ 2 := by positivity
  have hB : (0 : ℝ) ≤ x2 ^ 2 + y2 ^ 2 := by positivity
  have hAB : x1 * x2 + y1 * y2 ≤ Real.sqrt ((x1 ^ 2 + y1 ^ 2) * (x2 ^ 2 + y2 ^ 2)) := by
    rcases le_or_lt (x1 * x2 + y1 * y2) 0 with hle | hgt
    · exact le_trans hle (Real.sqrt_nonneg _)
    · rw [Real.le_sqrt hgt.le (by positivity)]
      nlinarith [sq_nonneg (x1 * y2 - x2 * y1)]
  have e1 : Real.sqrt (x1 ^ 2 + y1 ^ 2) ^ 2 = x1 ^ 2 + y1 ^ 2 := Real.sq_sqrt hA
  have e2 : Real.sqrt (x2 ^ 2 + y2 ^ 2) ^ 2 = x2 ^ 2 + y2 ^ 2 := Real.sq_sqrt hB
  have e3 : Real.sqrt (x1 ^ 2 + y1 ^ 2) * Real.sqrt (x2 ^ 2 + y2 ^ 2) =
      Real.sqrt ((x1 ^ 2 + y1 ^ 2) * (x2 ^ 2 + y2 ^ 2)) := (Real.sqrt_mul hA _).symm
  have hsum : (x1 + x2) ^ 2 + (y1 + y2) ^ 2 ≤
      (Real.sqrt (x1 ^ 2 + y1 ^ 2) + Real.sqrt (x2 ^ 2 + y2 ^ 2)) ^ 2 := by
    nlinarith [hAB, e1, e2, e3]
  have h := Real.sqrt_le_sqrt hsum
  rw [Real.sqrt_sq (by positivity)] at h
  exact h

theorem hEuclid_triangle (xy : List (Node × (ℚ × ℚ))) (u v w : Node) :
    hEuclid xy u w ≤ hEuclid xy u v + hEuclid xy v w := by
  unfold hEuclid
  have h := sqrt_add_sq_triangle
    (((lookupXY xy u).1 : ℝ) - ((lookupXY xy v).1 : ℝ))
    (((lookupXY xy u).2 : ℝ) - ((lookupXY xy v).2 : ℝ))
    (((lookupXY xy v).1 : ℝ) - ((lookupXY xy w).1 : ℝ))
    (((lookupXY xy v).2 : ℝ) - ((lookupXY xy w).2 : ℝ))
  have e1 : (((lookupXY xy u).1 : ℝ) - ((lookupXY xy v).1 : ℝ)) +
      (((lookupXY xy v).1 : ℝ) - ((lookupXY xy w).1 : ℝ)) =
      ((lookupXY xy u).1 : ℝ) - ((lookupXY xy w).1 : ℝ) := by ring
  have e2 : (((lookupXY xy u).2 : ℝ) - ((lookupXY xy v).2 : ℝ)) +
      (((lookupXY xy v).2 : ℝ) - ((lookupXY xy w).2 : ℝ)) =
      ((lookupXY xy u).2 : ℝ) - ((lookupXY xy w).2 : ℝ) := by ring
  rw [e1, e2] at h
  exact h

theorem neighbors_offsets_small {g : GridSpec} {nbs : List (ℤ × ℤ × W)}
    (h : g.neighbors = .ok nbs) :
    ∀ d ∈ nbs, (d.1 = -1 ∨ d.1 = 0 ∨ d.1 = 1) ∧ (d.2.1 = -1 ∨ d.2.1 = 0 ∨ d.2.1 = 1) := by
  unfold GridSpec.neighbors at h
  by_cases h4 : g.connectivity = 4
  · rw [if_pos h4] at h
    rw [← Except.ok.inj h]
    decide
  · rw [if_neg h4] at h
    by_cases h8 : g.connectivity = 8
    · rw [if_pos h8] at h
      rw [← Except.ok.inj h]
      decide
    · rw [if_neg h8] at h
      exact Except.noConfusion h

theorem edge_shape_of_built {polys : List Poly} {g : GridSpec}
    {xy : List (Node × (ℚ × ℚ))} {es : List Edge}
    (h : get_grid_graph polys g = .ok (xy, es)) {e : Edge} (he : e ∈ es) :
    ∃ nbs, g.neighbors = .ok nbs ∧ EdgeOK polys g nbs e ∧ xy = buildNodes polys g := by
  obtain ⟨hs0, hxy, hbe⟩ := get_grid_graph_ok_elim h
  cases hnb : g.neighbors with
  | error err =>
    exfalso
    rw [buildEdges_neighbors_error hnb] at hbe
    cases hn : buildNodes polys g with
    | nil =>
      rw [hn] at hbe
      have hes : es = [] := (Except.ok.inj hbe).symm
      rw [hes] at he
      exact absurd he (List.not_mem_nil e)
    | cons a l =>
      rw [hn] at hbe
      exact Except.noConfusion hbe
  | ok nbs =>
    exact ⟨nbs, rfl, buildEdges_shape hnb hbe e he, hxy⟩

theorem edge_weight_charac {polys : List Poly} {g : GridSpec}
    {xy : List (Node × (ℚ × ℚ))} {es : List Edge}
    (h : get_grid_graph polys g = .ok (xy, es)) {e : Edge} (he : e ∈ es) :
    e.1 ≠ e.2.1 ∧ 0 < e.2.2.toReal ∧
    e.2.2.toReal = (g.spacing_m : ℝ) *
      (if e.1.1 ≠ e.2.1.1 ∧ e.1.2 ≠ e.2.1.2 then Real.sqrt 2 else 1) ∧
    e.2.2.toReal = hEuclid xy e.1 e.2.1 := by
  obtain ⟨nbs, hnb, hEOK, hxy⟩ := edge_shape_of_built h he
  obtain ⟨d, hd, heq1, heq2, hm1, hm2⟩ := hEOK
  have hs := spacing_pos_of_edge h he
  have hsR : (0 : ℝ) < (g.spacing_m : ℝ) := by exact_mod_cast hs
  have hsmall := neighbors_offsets_small hnb d hd
  have hspec := neighbors_spec hnb d hd
  subst hxy
  have hm1' := hm1
  have hm2' := hm2
  have hl1 := lookupXY_built hm1'
  have hl2 := lookupXY_built hm2'
  have hcomp1 : e.2.1.1 = e.1.1 + d.1 := congrArg Prod.fst heq1
  have hcomp2 : e.2.1.2 = e.1.2 + d.2.1 := congrArg Prod.snd heq1
  have hE : hEuclid (buildNodes polys g) e.1 e.2.1 =
      Real.sqrt (((d.1 : ℝ) * (g.spacing_m : ℝ)) ^ 2 +
        ((d.2.1 : ℝ) * (g.spacing_m : ℝ)) ^ 2) := by
    unfold hEuclid
    rw [hl1, hl2, hcomp1, hcomp2]
    congr 1
    push_cast
    ring
  rcases hspec with ⟨hor, hnboth, hw⟩ | ⟨h1ne, h2ne, hw⟩
  · -- orthogonal step
    have hwt : e.2.2.toReal = (g.spacing_m : ℝ) := by
      rw [heq2, hw]
      unfold W.toReal
      push_cast
      ring
    rcases hor with h10 | h20
    · -- d.1 = 0, hence d.2.1 = ±1
      have h2z : d.2.1 ≠ 0 := fun hc => hnboth ⟨h10, hc⟩
      have h2sq : ((d.2.1 : ℝ)) ^ 2 = 1 := by
        rcases hsmall.2 with hm | hm | hm
        · rw [hm]; norm_num
        · exact absurd hm h2z
        · rw [hm]; norm_num
      refine ⟨?_, ?_, ?_, ?_⟩
      · intro hc
        have h2 := congrArg Prod.snd hc
        omega
      · rw [hwt]; exact hsR
      · have hcond : ¬ (e.1.1 ≠ e.2.1.1 ∧ e.1.2 ≠ e.2.1.2) := by
          intro hcond
          exact hcond.1 (by omega)
        rw [if_neg hcond, hwt]
        ring
      · rw [hE, hwt]
        have hsum : ((d.1 : ℝ) * (g.spacing_m : ℝ)) ^ 2 +
            ((d.2.1 : ℝ) * (g.spacing_m : ℝ)) ^ 2 = (g.spacing_m : ℝ) ^ 2 := by
          have hd1 : (d.1 : ℝ) = 0 := by exact_mod_cast h10
          rw [hd1]
          linear_combination ((g.spacing_m : ℝ) ^ 2) * h2sq
        rw [hsum, Real.sqrt_sq hsR.le]
    · -- d.2.1 = 0, hence d.1 = ±1
      have h1z : d.1 ≠ 0 := fun hc => hnboth ⟨hc, h20⟩
      have h1sq : ((d.1 : ℝ)) ^ 2 = 1 := by
        rcases hsmall.1 with hm | hm | hm
        · rw [hm]; norm_num
        · exact absurd hm h1z
        · rw [hm]; norm_num
      refine ⟨?_, ?_, ?_, ?_⟩
      · intro hc
        have h1 := congrArg Prod.fst hc
        omega
      · rw [hwt]; exact hsR
      · have hcond : ¬ (e.1.1 ≠ e.2.1.1 ∧ e.1.2 ≠ e.2.1.2) := by
          intro hcond
          exact hcond.2 (by omega)
        rw [if_neg hcond, hwt]
        ring
      · rw [hE, hwt]
        have hsum : ((d.1 : ℝ) * (g.spacing_m : ℝ)) ^ 2 +
            ((d.2.1 : ℝ) * (g.spacing_m : ℝ)) ^ 2 = (g.spacing_m : ℝ) ^ 2 := by
          have hd2 : (d.2.1 : ℝ) = 0 := by exact_mod_cast h20
          rw [hd2]
          linear_combination ((g.spacing_m : ℝ) ^ 2) * h1sq
        rw [hsum, Real.sqrt_sq hsR.le]
  · -- diagonal step
    have hwt : e.2.2.toReal = (g.spacing_m : ℝ) * Real.sqrt 2 := by
      rw [heq2, hw]
      unfold W.toReal
      push_cast
      ring
    have h1sq : ((d.1 : ℝ)) ^ 2 = 1 := by
      rcases hsmall.1 with hm | hm | hm
      · rw [hm]; norm_num
      · exact absurd hm h1ne
      · rw [hm]; norm_num
    have h2sq : ((d.2.1 : ℝ)) ^ 2 = 1 := by
      rcases hsmall.2 with hm | hm | hm
      · rw [hm]; norm_num
      · exact absurd hm h2ne
      · rw [hm]; norm_num
    refine ⟨?_, ?_, ?_, ?_⟩
    · intro hc
      have h1 := congrArg Prod.fst hc
      omega
    · rw [hwt]
      exact mul_pos hsR sqrt2_pos
    · have hcond : e.1.1 ≠ e.2.1.1 ∧ e.1.2 ≠ e.2.1.2 := by
        constructor
        · intro hc; omega
        · intro hc; omega
      rw [if_pos hcond, hwt]
    · rw [hE, hwt]
      have hsum : ((d.1 : ℝ) * (g.spacing_m : ℝ)) ^ 2 +
          ((d.2.1 : ℝ) * (g.spacing_m : ℝ)) ^ 2 = (g.spacing_m : ℝ) ^ 2 * 2 := by
        linear_combination ((g.spacing_m : ℝ) ^ 2) * h1sq + ((g.spacing_m : ℝ) ^ 2) * h2sq
      rw [hsum, Real.sqrt_mul (sq_nonneg _), Real.sqrt_sq hsR.le]

theorem edges_nonneg_of_built {polys : List Poly} {g : GridSpec}
    {xy : List (Node × (ℚ × ℚ))} {es : List Edge}
    (h : get_grid_graph polys g = .ok (xy, es)) : ∀ e ∈ es, 0 ≤ e.2.2.toReal :=
  fun _ he => (edge_weight_charac h he).2.1.le

theorem edges_endpoints_of_built {polys : List Poly} {g : GridSpec}
    {xy : List (Node × (ℚ × ℚ))} {es : List Edge}
    (h : get_grid_graph polys g = .ok (xy, es)) :
    ∀ e ∈ es, e.1 ∈ xy.map Prod.fst ∧ e.2.1 ∈ xy.map Prod.fst := by
  intro e he
  obtain ⟨nbs, hnb, ⟨d, hd, heq1, heq2, hm1, hm2⟩, hxy⟩ := edge_shape_of_built h he
  rw [hxy]
  exact ⟨hm1, hm2⟩

theorem wt_eq_dist_of_edge {polys : List Poly} {g : GridSpec}
    {xy : List (Node × (ℚ × ℚ))} {es : List Edge}
    (h : get_grid_graph polys g = .ok (xy, es)) {u v : Node}
    (huv : hasEdge es u v = true) : (wt es u v).toReal = hEuclid xy u v := by
  obtain ⟨e, he, hm, hwt⟩ := wt_of_hasEdge huv
  have hch := edge_weight_charac h he
  rw [hwt]
  unfold matchEdge at hm
  rcases of_decide_eq_true hm with ⟨h1, h2⟩ | ⟨h1, h2⟩
  · rw [← h1, ← h2]
    exact hch.2.2.2
  · rw [← h1, ← h2, hEuclid_symm]
    exact hch.2.2.2

theorem hEuclid_le_walk {polys : List Poly} {g : GridSpec}
    {xy : List (Node × (ℚ × ℚ))} {es : List Edge}
    (h : get_grid_graph polys g = .ok (xy, es)) :
    ∀ (q : List Node) (u t : Node), isWalk es q u t →
      hEuclid xy u t ≤ (pathWeight es q).toReal := by
  intro q
  induction q with
  | nil => intro u t hw; exact absurd rfl hw.1
  | cons a rest ih =>
    intro u t hw
    obtain ⟨hne, hh, hl, hc⟩ := hw
    have hau : a = u := Option.some.inj hh
    subst hau
    cases rest with
    | nil =>
      have hat : a = t := Option.some.inj hl
      subst hat
      have h0 : hEuclid xy a a = 0 := by
        unfold hEuclid
        rw [sub_self, sub_self]
        have hz : ((0 : ℝ)) ^ 2 + ((0 : ℝ)) ^ 2 = 0 := by norm_num
        rw [hz, Real.sqrt_zero]
      rw [h0, show pathWeight es [a] = 0 from rfl, W.toReal_zero]
    | cons v r =>
      have hadj : adjRel es a v := (List.chain'_cons.mp hc).1
      have hwalk' : isWalk es (v :: r) v t := by
        refine ⟨List.cons_ne_nil v r, rfl, ?_, (List.chain'_cons.mp hc).2⟩
        exact (List.getLast?_cons_cons).symm.trans hl
      have hihv := ih v t hwalk'
      have htri := hEuclid_triangle xy a v t
      have hwd : (wt es a v).toReal = hEuclid xy a v := wt_eq_dist_of_edge h hadj
      rw [pathWeight_cons_cons, W.toReal_add]
      linarith

/-! ### The nearest-node linear scan -/

theorem snapFold_spec (x y : ℚ) :
    ∀ (l : List (Node × (ℚ × ℚ))) (n : Node) (d : ℚ),
      ∃ n' d', l.foldl (snapStep x y) (some (n, d)) = some (n', d') ∧ d' ≤ d ∧
        ((n' = n ∧ d' = d) ∨ ∃ p ∈ l, n' = p.1 ∧ d' = d2sq x y p.2) ∧
        ∀ q ∈ l, d' ≤ d2sq x y q.2 := by
  intro l
  induction l with
  | nil =>
    intro n d
    exact ⟨n, d, rfl, le_refl d, Or.inl ⟨rfl, rfl⟩,
      fun q hq => absurd hq (List.not_mem_nil q)⟩
  | cons p l ih =>
    intro n d
    rw [List.foldl_cons]
    by_cases hlt : d2sq x y p.2 < d
    · have hstep : snapStep x y (some (n, d)) p = some (p.1, d2sq x y p.2) := by
        show (if d2sq x y p.2 < d then some (p.1, d2sq x y p.2) else some (n, d)) =
          some (p.1, d2sq x y p.2)
        rw [if_pos hlt]
      rw [hstep]
      obtain ⟨n', d', heq, hle, hor, hall⟩ := ih p.1 (d2sq x y p.2)
      refine ⟨n', d', heq, le_trans hle hlt.le, ?_, ?_⟩
      · rcases hor with ⟨h1, h2⟩ | ⟨q, hq, h1, h2⟩
        · exact Or.inr ⟨p, List.mem_cons_self p l, h1, h2⟩
        · exact Or.inr ⟨q, List.mem_cons_of_mem p hq, h1, h2⟩
      · intro q hq
        rcases List.mem_cons.mp hq with hqp | hql
        · rw [hqp]
          exact hle
        · exact hall q hql
    · have hstep : snapStep x y (some (n, d)) p = some (n, d) := by
        show (if d2sq x y p.2 < d then some (p.1, d2sq x y p.2) else some (n, d)) =
          some (n, d)
        rw [if_neg hlt]
      rw [hstep]
      obtain ⟨n', d', heq, hle, hor, hall⟩ := ih n d
      refine ⟨n', d', heq, hle, ?_, ?_⟩
      · rcases hor with ⟨h1, h2⟩ | ⟨q, hq, h1, h2⟩
        · exact Or.inl ⟨h1, h2⟩
        · exact Or.inr ⟨q, List.mem_cons_of_mem p hq, h1, h2⟩
      · intro q hq
        rcases List.mem_cons.mp hq with hqp | hql
        · rw [hqp]
          exact le_trans hle (not_lt.mp hlt)
        · exact hall q hql

theorem nearest_node_spec (xy : List (Node × (ℚ × ℚ))) (x y : ℚ) (hne : xy ≠ []) :
    ∃ p ∈ xy, nearest_node_xy xy x y = some p.1 ∧
      ∀ q ∈ xy, d2sq x y p.2 ≤ d2sq x y q.2 := by
  cases xy with
  | nil => exact absurd rfl hne
  | cons p l =>
    unfold nearest_node_xy
    rw [List.foldl_cons]
    have hstep : snapStep x y none p = some (p.1, d2sq x y p.2) := rfl
    rw [hstep]
    obtain ⟨n', d', heq, hle, hor, hall⟩ := snapFold_spec x y l p.1 (d2sq x y p.2)
    rw [heq]
    rcases hor with ⟨h1, h2⟩ | ⟨q, hq, h1, h2⟩
    · refine ⟨p, List.mem_cons_self p l, by rw [h1]; rfl, ?_⟩
      intro q hq
      rcases List.mem_cons.mp hq with hqp | hql
      · rw [hqp]
      · have := hall q hql
        rw [h2] at this
        exact this
    · refine ⟨q, List.mem_cons_of_mem p hq, by rw [h1]; rfl, ?_⟩
      intro r hr
      rcases List.mem_cons.mp hr with hrp | hrl
      · rw [hrp, ← h2]
        exact hle
      · have := hall r hrl
        rw [h2] at this
        exact this

theorem nearest_node_isSome {xy : List (Node × (ℚ × ℚ))} {x y : ℚ} (hne : xy ≠ []) :
    (nearest_node_xy xy x y).isSome = true := by
  obtain ⟨p, _, h1, _⟩ := nearest_node_spec xy x y hne
  rw [h1]
  rfl

theorem nearest_node_none_of_nil (x y : ℚ) : nearest_node_xy [] x y = none := rfl

/-! ### Route-level helper lemmas -/

theorem nearest_node_mem {xy : List (Node × (ℚ × ℚ))} {x y : ℚ} {n : Node}
    (h : nearest_node_xy xy x y = some n) : n ∈ xy.map Prod.fst := by
  cases xy with
  | nil => exact Option.noConfusion h
  | cons p l =>
    obtain ⟨q, hq, h1, _⟩ := nearest_node_spec (p :: l) x y (List.cons_ne_nil p l)
    rw [h] at h1
    rw [Option.some.inj h1]
    exact List.mem_map.mpr ⟨q, hq, rfl⟩

theorem spb_ok_elim {fw : Fairway} {fwd : ℚ × ℚ → ℚ × ℚ} {a b c d : ℚ}
    {p : List Node} {w : W}
    (h : shortest_path_between fw fwd a b c d = .ok (p, w)) :
    ∃ s t, nearest_node_xy fw.xy_m (fwd (a, b)).1 (fwd (a, b)).2 = some s ∧
      nearest_node_xy fw.xy_m (fwd (c, d)).1 (fwd (c, d)).2 = some t ∧
      astar_path fw.xy_m fw.edges s t = some p ∧ w = pathWeight fw.edges p := by
  unfold shortest_path_between at h
  split at h
  · rename_i s t hs ht
    split at h
    · rename_i p' ha
      have hp := Except.ok.inj h
      have hp1 : p' = p := congrArg Prod.fst hp
      have hpw : pathWeight fw.edges p' = w := congrArg Prod.snd hp
      have hp2 : w = pathWeight fw.edges p := by rw [← hpw, hp1]
      exact ⟨s, t, hs, ht, by rw [← hp1]; exact ha, hp2⟩
    · exact Except.noConfusion h
  · exact Except.noConfusion h

theorem spb_not_snapError {fw : Fairway} (hne : fw.xy_m ≠ []) (fwd : ℚ × ℚ → ℚ × ℚ)
    (a b c d : ℚ) :
    shortest_path_between fw fwd a b c d ≠ .error Err.snapError := by
  unfold shortest_path_between
  obtain ⟨s, hs⟩ := Option.isSome_iff_exists.mp
    (show (nearest_node_xy fw.xy_m (fwd (a, b)).1 (fwd (a, b)).2).isSome = true from
      nearest_node_isSome hne)
  obtain ⟨t, ht⟩ := Option.isSome_iff_exists.mp
    (show (nearest_node_xy fw.xy_m (fwd (c, d)).1 (fwd (c, d)).2).isSome = true from
      nearest_node_isSome hne)
  rw [hs, ht]
  show (match astar_path fw.xy_m fw.edges s t with
    | some p => Except.ok (p, pathWeight fw.edges p)
    | none => Except.error Err.noPath) ≠ Except.error Err.snapError
  cases ha : astar_path fw.xy_m fw.edges s t with
  | none =>
    intro hc
    exact Err.noConfusion (Except.error.inj hc)
  | some p =>
    intro hc
    exact Except.noConfusion hc

/-! ### Claim theorems -/

/-- C1: every edge of the built graph has weight
`spacing * directionFactor * multiplier`, where the direction factor is `1`
for orthogonal steps and `√2` for diagonal steps (an edge is diagonal exactly
when both grid indices differ), and the effective sub-region multiplier is
`1.0` — the code under `src/` has no sub-region mechanism, so no sub-region
ever applies — and every edge weight is strictly positive. -/
theorem c1_edge_weights (polys : List Poly) (g : GridSpec)
    (xy : List (Node × (ℚ × ℚ))) (es : List Edge)
    (h : get_grid_graph polys g = .ok (xy, es)) :
    ∀ e ∈ es,
      e.2.2.toReal = (g.spacing_m : ℝ) *
        (if e.1.1 ≠ e.2.1.1 ∧ e.1.2 ≠ e.2.1.2 then Real.sqrt 2 else 1) * 1 ∧
      0 < e.2.2.toReal := by
  intro e he
  have hch := edge_weight_charac h he
  refine ⟨?_, hch.2.1⟩
  rw [hch.2.2.1]
  ring

/-- Witness for C1: the 100 m square at spacing 100, connectivity 8. -/
theorem c1_witness :
    get_grid_graph [sq100] ⟨100, 8⟩ = .ok (fwSq.xy_m, fwSq.edges) ∧
    ∀ e ∈ fwSq.edges,
      e.2.2.toReal = ((100 : ℚ) : ℝ) *
        (if e.1.1 ≠ e.2.1.1 ∧ e.1.2 ≠ e.2.1.2 then Real.sqrt 2 else 1) * 1 ∧
      0 < e.2.2.toReal :=
  ⟨by with_unfolding_all decide,
   c1_edge_weights [sq100] ⟨100, 8⟩ fwSq.xy_m fwSq.edges (by with_unfolding_all decide)⟩

/-- C2: on success, `find_route`'s underlying search returns the node
sequence of a minimum-cost path between the two snapped endpoint nodes,
inclusive of both (head is the snapped start, last is the snapped end), with
total cost equal to `pathWeight`, the sum of the traversed edge weights; the
returned cost is minimal among all walks joining the snapped nodes, and the
source's Euclidean heuristic is admissible on this lattice (it never exceeds
the cost of any walk to the goal). -/
theorem c2_optimal_route (fw : Fairway)
    (hfw : get_grid_graph fw.fairway_m fw.grid = .ok (fw.xy_m, fw.edges))
    (fwd : ℚ × ℚ → ℚ × ℚ) (a b c d : ℚ) (p : List Node) (w : W)
    (h : shortest_path_between fw fwd a b c d = .ok (p, w)) :
    ∃ s t, nearest_node_xy fw.xy_m (fwd (a, b)).1 (fwd (a, b)).2 = some s ∧
      nearest_node_xy fw.xy_m (fwd (c, d)).1 (fwd (c, d)).2 = some t ∧
      p.head? = some s ∧ p.getLast? = some t ∧
      isWalk fw.edges p s t ∧
      w = pathWeight fw.edges p ∧
      (∀ q, isWalk fw.edges q s t →
        (pathWeight fw.edges p).toReal ≤ (pathWeight fw.edges q).toReal) ∧
      (∀ u (q : List Node), isWalk fw.edges q u t →
        hEuclid fw.xy_m u t ≤ (pathWeight fw.edges q).toReal) := by
  obtain ⟨s, t, hs, ht, ha, hw⟩ := spb_ok_elim h
  obtain ⟨hwalk, hnodup⟩ := astar_path_isWalk ha
  have hnn := edges_nonneg_of_built hfw
  have hend := edges_endpoints_of_built hfw
  have hsmem : s ∈ fw.xy_m.map Prod.fst := nearest_node_mem hs
  refine ⟨s, t, hs, ht, hwalk.2.1, hwalk.2.2.1, hwalk, hw, ?_, ?_⟩
  · exact astar_path_min ha hnn hend hsmem
  · intro u q hq
    exact hEuclid_le_walk hfw q u t hq

/-- Witness for C2: the diagonal route across the square, cost `100·√2`. -/
theorem c2_witness :
    shortest_path_between fwSq id 0 0 100 100 = .ok ([(0, 0), (1, 1)], ⟨0, 100⟩) ∧
    (∃ s t,
      nearest_node_xy fwSq.xy_m (id ((0 : ℚ), (0 : ℚ))).1 (id ((0 : ℚ), (0 : ℚ))).2 = some s ∧
      nearest_node_xy fwSq.xy_m (id ((100 : ℚ), (100 : ℚ))).1
        (id ((100 : ℚ), (100 : ℚ))).2 = some t ∧
      ([(0, 0), (1, 1)] : List Node).head? = some s ∧
      ([(0, 0), (1, 1)] : List Node).getLast? = some t ∧
      isWalk fwSq.edges [(0, 0), (1, 1)] s t ∧
      (⟨0, 100⟩ : W) = pathWeight fwSq.edges [(0, 0), (1, 1)] ∧
      (∀ q, isWalk fwSq.edges q s t →
        (pathWeight fwSq.edges [(0, 0), (1, 1)]).toReal ≤ (pathWeight fwSq.edges q).toReal) ∧
      (∀ u (q : List Node), isWalk fwSq.edges q u t →
        hEuclid fwSq.xy_m u t ≤ (pathWeight fwSq.edges q).toReal)) :=
  ⟨by with_unfolding_all decide,
   c2_optimal_route fwSq (by with_unfolding_all decide) id 0 0 100 100
     [(0, 0), (1, 1)] ⟨0, 100⟩ (by with_unfolding_all decide)⟩

/-- C3: when both query points snap but the snapped nodes are joined by no
walk (they lie in different connected components), `find_route` fails with
the no-path error — it returns no partial path, no infinite cost and no
default route, since the result is exactly `Except.error Err.noPath`. -/
theorem c3_no_path (fw : Fairway) (fwd : ℚ × ℚ → ℚ × ℚ) (a b c d : ℚ) (s t : Node)
    (hs : nearest_node_xy fw.xy_m (fwd (a, b)).1 (fwd (a, b)).2 = some s)
    (ht : nearest_node_xy fw.xy_m (fwd (c, d)).1 (fwd (c, d)).2 = some t)
    (hdisc : ∀ q, ¬ isWalk fw.edges q s t) :
    find_route fw fwd a b c d = .error Err.noPath := by
  unfold find_route shortest_path_between
  rw [hs, ht]
  show (match astar_path fw.xy_m fw.edges s t with
    | some p => Except.ok (p, pathWeight fw.edges p)
    | none => Except.error Err.noPath) = Except.error Err.noPath
  rw [astar_path_none_of_no_walk hdisc]

/-- Witness for C3: two isolated nodes 300 m apart. -/
theorem c3_witness : find_route fwDots id 0 0 300 0 = .error Err.noPath := by
  apply c3_no_path fwDots id 0 0 300 0 (0, 0) (3, 0)
  · with_unfolding_all decide
  · with_unfolding_all decide
  · rintro q ⟨hne, hh, hl, hc⟩
    cases q with
    | nil => exact hne rfl
    | cons a rest =>
      have ha : a = ((0 : ℤ), (0 : ℤ)) := Option.some.inj hh
      cases rest with
      | nil =>
        have hat : a = ((3 : ℤ), (0 : ℤ)) := Option.some.inj hl
        rw [ha] at hat
        exact absurd hat (by decide)
      | cons b r =>
        have hadj := (List.chain'_cons.mp hc).1
        simp only [adjRel, fwDots, hasEdge, List.any_nil] at hadj
        exact Bool.noConfusion hadj

/-- C4: when no lattice point falls inside the region (and spacing does not
trigger the zero-division failure), the build succeeds with an empty graph —
an `Except.ok`, distinct from any failed build — and every subsequent
`find_route` on that empty lattice fails with the snap `RuntimeError`
(`NoNavigableNode`/`Unreachable`), never with an unrelated indexing error. -/
theorem c4_empty_lattice (polys : List Poly) (g : GridSpec) (hs : g.spacing_m ≠ 0)
    (hempty : buildNodes polys g = []) :
    get_grid_graph polys g = .ok ([], []) ∧
    ∀ fwd (a b c d : ℚ),
      find_route (Fairway.mk polys g [] []) fwd a b c d = .error Err.snapError := by
  constructor
  · have hbe : buildEdges (buildNodes polys g) g = .ok [] := by rw [hempty]; rfl
    have hok := get_grid_graph_ok_intro hs hbe
    rw [hempty] at hok
    exact hok
  · intro fwd a b c d
    rfl

/-- Witness for C4: a region covering only the interior point `(1/2, 1/2)`
with spacing 200 beyond the bounding-box diagonal. -/
theorem c4_witness :
    get_grid_graph [midPointOnly] ⟨200, 8⟩ = .ok ([], []) ∧
    find_route fwEmpty id 0 0 300 300 = .error Err.snapError :=
  ⟨(c4_empty_lattice [midPointOnly] ⟨200, 8⟩ (by norm_num) (by with_unfolding_all decide)).1,
   (c4_empty_lattice [midPointOnly] ⟨200, 8⟩ (by norm_num)
     (by with_unfolding_all decide)).2 id 0 0 300 300⟩

/-- Counterexample to C5 as stated: constructing the grid graph with the
strictly negative spacing `-200` does not fail with any configuration
error — it silently succeeds, and even yields a nonempty graph (one node at
the bounding-box corner). -/
theorem c5_counterexample :
    get_grid_graph [sq100] ⟨-200, 8⟩ = .ok ([((0, 0), (0, 0))], []) := by
  with_unfolding_all decide

/-- C5 (amended): non-positive spacing is not validated at construction.
Zero spacing makes the build fail with `ZeroDivisionError` (from the floor
division by the spacing), not an `InvalidConfiguration` error; strictly
negative spacing with a supported connectivity silently produces a graph. -/
theorem c5_amended (polys : List Poly) (g : GridSpec) :
    (g.spacing_m = 0 → get_grid_graph polys g = .error Err.zeroDivision) ∧
    (g.spacing_m < 0 → (g.connectivity = 4 ∨ g.connectivity = 8) →
      ∃ gr, get_grid_graph polys g = .ok gr) := by
  constructor
  · intro h0
    unfold get_grid_graph
    rw [if_pos h0]
  · intro hneg hconn
    have hsne : g.spacing_m ≠ 0 := ne_of_lt hneg
    have hnb : ∃ nbs, g.neighbors = .ok nbs := by
      rcases hconn with h4 | h8
      · exact ⟨_, by unfold GridSpec.neighbors; rw [if_pos h4]⟩
      · exact ⟨_, by
          unfold GridSpec.neighbors
          rw [if_neg (show ¬ g.connectivity = 4 by rw [h8]; decide), if_pos h8]⟩
    obtain ⟨nbs, hnb⟩ := hnb
    exact ⟨_, get_grid_graph_ok_intro hsne (buildEdges_ok_of_neighbors hnb)⟩

/-- Witness for the amended C5: concrete zero- and negative-spacing builds. -/
theorem c5_witness :
    get_grid_graph [sq100] ⟨0, 8⟩ = .error Err.zeroDivision ∧
    ∃ gr, get_grid_graph [sq100] ⟨-200, 8⟩ = .ok gr :=
  ⟨(c5_amended [sq100] ⟨0, 8⟩).1 rfl,
   (c5_amended [sq100] ⟨-200, 8⟩).2 (by norm_num) (Or.inr rfl)⟩

/-- C6: the built graph is simple and undirected: no edge is a self-loop, no
two stored edges connect the same unordered node pair, and the adjacency
relation is symmetric. -/
theorem c6_simple_undirected (polys : List Poly) (g : GridSpec)
    (xy : List (Node × (ℚ × ℚ))) (es : List Edge)
    (h : get_grid_graph polys g = .ok (xy, es)) :
    (∀ e ∈ es, e.1 ≠ e.2.1) ∧
    es.Pairwise (fun e e' => ¬ sameUnordered e e') ∧
    ∀ u v, hasEdge es u v = hasEdge es v u := by
  refine ⟨fun e he => (edge_weight_charac h he).1, ?_, hasEdge_symm es⟩
  obtain ⟨hs0, hxy, hbe⟩ := get_grid_graph_ok_elim h
  cases hnb : g.neighbors with
  | ok nbs => exact buildEdges_pairwise hnb hbe
  | error err =>
    rw [buildEdges_neighbors_error hnb] at hbe
    cases hn : buildNodes polys g with
    | nil =>
      rw [hn] at hbe
      have hes : ([] : List Edge) = es := Except.ok.inj hbe
      rw [← hes]
      exact List.Pairwise.nil
    | cons p l =>
      rw [hn] at hbe
      exact Except.noConfusion hbe

/-- Witness for C6: the square fairway's graph. -/
theorem c6_witness :
    (∀ e ∈ fwSq.edges, e.1 ≠ e.2.1) ∧
    fwSq.edges.Pairwise (fun e e' => ¬ sameUnordered e e') ∧
    ∀ u v, hasEdge fwSq.edges u v = hasEdge fwSq.edges v u :=
  c6_simple_undirected [sq100] ⟨100, 8⟩ fwSq.xy_m fwSq.edges (by with_unfolding_all decide)

/-- C7: for positive spacing, a lattice node `(i, j)` is in the built node
set iff its projected coordinate is covered by the region (inside or on the
boundary), and the spatial-index quick reject never excludes a covered
candidate point. -/
theorem c7_node_membership (polys : List Poly) (g : GridSpec)
    (xy : List (Node × (ℚ × ℚ))) (es : List Edge)
    (h : get_grid_graph polys g = .ok (xy, es)) (hs : 0 < g.spacing_m) (i j : ℤ) :
    (((i, j) : Node) ∈ xy.map Prod.fst ↔
      regionCovers polys (bMinX polys + (i : ℚ) * g.spacing_m)
        (bMinY polys + (j : ℚ) * g.spacing_m) = true) ∧
    (regionCovers polys (bMinX polys + (i : ℚ) * g.spacing_m)
        (bMinY polys + (j : ℚ) * g.spacing_m) = true →
      treeQueryNonempty polys (bMinX polys + (i : ℚ) * g.spacing_m)
        (bMinY polys + (j : ℚ) * g.spacing_m) = true) := by
  obtain ⟨_, hxy, _⟩ := get_grid_graph_ok_elim h
  rw [hxy]
  exact ⟨mem_keys_buildNodes_iff hs i j, fun hc => treeQuery_of_covers hc⟩

/-- Witness for C7: the corner node `(1, 1)` of the square fairway. -/
theorem c7_witness :
    (((1, 1) : Node) ∈ fwSq.xy_m.map Prod.fst ↔
      regionCovers [sq100] (bMinX [sq100] + (1 : ℚ) * 100)
        (bMinY [sq100] + (1 : ℚ) * 100) = true) ∧
    (regionCovers [sq100] (bMinX [sq100] + (1 : ℚ) * 100)
        (bMinY [sq100] + (1 : ℚ) * 100) = true →
      treeQueryNonempty [sq100] (bMinX [sq100] + (1 : ℚ) * 100)
        (bMinY [sq100] + (1 : ℚ) * 100) = true) :=
  c7_node_membership [sq100] ⟨100, 8⟩ fwSq.xy_m fwSq.edges
    (by with_unfolding_all decide) (by norm_num) 1 1

/-- C8: `find_route` is deterministic: on two fairway values carrying an
identical graph (same `xy_m` dict and same edge list) and identical query
coordinates with the same injected transformer, the results — node sequence
and total cost — are equal. -/
theorem c8_deterministic (fw1 fw2 : Fairway) (h1 : fw1.xy_m = fw2.xy_m)
    (h2 : fw1.edges = fw2.edges) (fwd : ℚ × ℚ → ℚ × ℚ) (a b c d : ℚ) :
    find_route fw1 fwd a b c d = find_route fw2 fwd a b c d := by
  unfold find_route shortest_path_between astar_path
  rw [h1, h2]

/-- Witness for C8: two fairways differing in geometry and grid fields but
with identical graphs yield identical routes. -/
theorem c8_witness : find_route fwSq id 0 0 100 100 = find_route fwSqClone id 0 0 100 100 :=
  c8_deterministic fwSq fwSqClone rfl rfl id 0 0 100 100

/-- C9: query coordinates are never validated against the region: on any
nonempty lattice, any query point — arbitrarily far outside the region — is
snapped to a lattice node minimising the (squared) Euclidean distance, and
`find_route` never raises the snap error for such points. -/
theorem c9_snap_unvalidated (fw : Fairway) (hne : fw.xy_m ≠ []) :
    (∀ x y : ℚ, ∃ p ∈ fw.xy_m, nearest_node_xy fw.xy_m x y = some p.1 ∧
      ∀ q ∈ fw.xy_m, d2sq x y p.2 ≤ d2sq x y q.2) ∧
    ∀ fwd (a b c d : ℚ), find_route fw fwd a b c d ≠ .error Err.snapError := by
  refine ⟨fun x y => nearest_node_spec fw.xy_m x y hne, ?_⟩
  intro fwd a b c d
  unfold find_route
  exact spb_not_snapError hne fwd a b c d

/-- Witness for C9: a query point one million meters outside the square. -/
theorem c9_witness :
    (∃ p ∈ fwSq.xy_m, nearest_node_xy fwSq.xy_m 1000000 1000000 = some p.1 ∧
      ∀ q ∈ fwSq.xy_m, d2sq 1000000 1000000 p.2 ≤ d2sq 1000000 1000000 q.2) ∧
    find_route fwSq id 1000000 1000000 0 0 ≠ .error Err.snapError :=
  ⟨(c9_snap_unvalidated fwSq (by with_unfolding_all decide)).1 1000000 1000000,
   (c9_snap_unvalidated fwSq (by with_unfolding_all decide)).2 id 1000000 1000000 0 0⟩

/-- C10: an unsupported connectivity is detected lazily: constructing a
`GridSpec` with it succeeds (the model's `GridSpec.mk` is total, as the
Python dataclass performs no validation), `neighbors` raises the
`ValueError`, and a build whose lattice is empty completes successfully
without ever reporting the invalid connectivity, while a build with at least
one node surfaces the `ValueError` from the per-node edge-assembly loop. -/
theorem c10_lazy_connectivity (g : GridSpec) (polys : List Poly)
    (hc4 : g.connectivity ≠ 4) (hc8 : g.connectivity ≠ 8) :
    g.neighbors = .error (Err.valueError ("connectivity must be 4 or 8")) ∧
    (g.spacing_m ≠ 0 → buildNodes polys g = [] → get_grid_graph polys g = .ok ([], [])) ∧
    (g.spacing_m ≠ 0 → buildNodes polys g ≠ [] →
      get_grid_graph polys g = .error (Err.valueError ("connectivity must be 4 or 8"))) := by
  have hnb : g.neighbors = .error (Err.valueError ("connectivity must be 4 or 8")) := by
    unfold GridSpec.neighbors
    rw [if_neg hc4, if_neg hc8]
  refine ⟨hnb, ?_, ?_⟩
  · intro hs hempty
    have hbe : buildEdges (buildNodes polys g) g = .ok [] := by rw [hempty]; rfl
    have hok := get_grid_graph_ok_intro hs hbe
    rw [hempty] at hok
    exact hok
  · intro hs hne
    have herr := @buildEdges_neighbors_error (buildNodes polys g) g _ hnb
    unfold get_grid_graph
    rw [if_neg hs]
    cases hn : buildNodes polys g with
    | nil => exact absurd hn hne
    | cons p l =>
      rw [hn] at herr
      have herr2 : buildEdges (p :: l) g =
          Except.error (Err.valueError ("connectivity must be 4 or 8")) := herr
      rw [herr2]

/-- Witness for C10: connectivity 5 errors in `neighbors`; the empty-lattice
build at connectivity 5 succeeds; the square build at connectivity 5 fails
with the `ValueError`. -/
theorem c10_witness :
    GridSpec.neighbors ⟨200, 5⟩ = .error (Err.valueError ("connectivity must be 4 or 8")) ∧
    get_grid_graph [midPointOnly] ⟨200, 5⟩ = .ok ([], []) ∧
    get_grid_graph [sq100] ⟨100, 5⟩ = .error (Err.valueError ("connectivity must be 4 or 8")) :=
  ⟨(c10_lazy_connectivity ⟨200, 5⟩ [] (by decide) (by decide)).1,
   (c10_lazy_connectivity ⟨200, 5⟩ [midPointOnly] (by decide) (by decide)).2.1
     (by norm_num) (by with_unfolding_all decide),
   (c10_lazy_connectivity ⟨100, 5⟩ [sq100] (by decide) (by decide)).2.2
     (by norm_num) (by with_unfolding_all decide)⟩

end AmoRoutePlan
